import Mathlib

/-!
Verification of the IPv4 network-calculator engine (`network_calculator.py`).

The engine is shallowly embedded here: IPv4 addresses are natural numbers
below 2^32, dotted-decimal text is modelled on `List Char` / `String`, and
each Python method of `NetworkCalculator` (together with the parts of the
standard `ipaddress` library it calls) becomes an executable Lean function.
Python exceptions become an explicit result type `PyResult`; every distinct
`raise` site that a caller can observe gets its own `PyErr` constructor.
-/

set_option maxRecDepth 40000

namespace NetCalc

/-- Decimal digit character, `chr(48 + d)` for `d < 10`. -/
def digitChar (d : Nat) : Char := Char.ofNat (48 + d)

/-- Fuel-driven decimal digit expansion (most significant first); the fuel
is an upper bound on the number of digits, making the recursion structural. -/
def digitsAux : Nat → Nat → List Char
  | 0, _ => []
  | f + 1, n => if n = 0 then [] else digitsAux f (n / 10) ++ [digitChar (n % 10)]

/-- Canonical decimal rendering of a natural number (no leading zeros),
as produced by Python `str(int)`. -/
def digitsOf (n : Nat) : List Char := if n = 0 then ['0'] else digitsAux n n

/-- Dotted-decimal rendering of a 32-bit value, big-endian bytes, as produced
by `socket.inet_ntoa(struct.pack('>I', m))` and by `str(IPv4Address(m))`. -/
def formatChars (m : Nat) : List Char :=
  digitsOf (m / 16777216 % 256) ++ '.' ::
    (digitsOf (m / 65536 % 256) ++ '.' ::
      (digitsOf (m / 256 % 256) ++ '.' :: digitsOf (m % 256)))

/-- String form of `formatChars`. -/
def formatAddress (m : Nat) : String := String.mk (formatChars m)

/-- Decimal value of a digit string, `int(s)` after an all-digits check. -/
def decVal (l : List Char) : Nat := l.foldl (fun a c => a * 10 + (c.toNat - 48)) 0

/-- Python `str.split(sep)` on character lists: always returns at least one
(possibly empty) part, empty parts between consecutive separators. -/
def splitChar (c : Char) : List Char → List (List Char)
  | [] => [[]]
  | x :: xs =>
    match splitChar c xs with
    | [] => [[x]]
    | h :: t => if x = c then [] :: h :: t else (x :: h) :: t

/-- CPython `ipaddress._parse_octet`: non-empty, ASCII digits only, at most
three characters, no leading zero (except "0" itself), value at most 255. -/
def parseOctet (l : List Char) : Option Nat :=
  if l.isEmpty then none
  else if !(l.all Char.isDigit) then none
  else if 3 < l.length then none
  else if l ≠ ['0'] ∧ l.head? = some '0' then none
  else if 255 < decVal l then none
  else some (decVal l)

/-- CPython `ipaddress._ip_int_from_string`: reject empty text, split on dots,
require exactly four octet groups, combine big-endian. -/
def ipIntFromChars (l : List Char) : Option Nat :=
  if l.isEmpty then none
  else
    match splitChar '.' l with
    | [a, b, c, d] =>
      match parseOctet a, parseOctet b, parseOctet c, parseOctet d with
      | some x, some y, some z, some w => some (((x * 256 + y) * 256 + z) * 256 + w)
      | _, _, _, _ => none
    | _ => none

/-- CPython `IPv4Address(str)`: a slash is rejected up front, then
`_ip_int_from_string`. -/
def parseIPv4 (s : String) : Option Nat :=
  if s.toList.contains '/' then none else ipIntFromChars s.toList

/-- Fuel-driven bit length; `bitLenAux n m` is `m.bit_length()` whenever
`m ≤ n`, since a number never has more bits than its own magnitude. -/
def bitLenAux : Nat → Nat → Nat
  | 0, _ => 0
  | f + 1, n => if n = 0 then 0 else bitLenAux f (n / 2) + 1

/-- Python `int.bit_length()`. -/
def bitLen (n : Nat) : Nat := bitLenAux n n

/-- CPython `ipaddress._count_righthand_zero_bits(number, bits)`:
`bits` if the number is zero, otherwise `min(bits, (~number & (number-1)).bit_length())`.
On naturals `~number & (number-1)` is `(number-1) ^^^ ((number-1) &&& number)`,
the bits set in `number-1` but not in `number`. -/
def czb (n bits : Nat) : Nat :=
  if n = 0 then bits
  else min bits (bitLen ((n - 1) ^^^ ((n - 1) &&& n)))

/-- CPython `ipaddress._ip_int_from_prefix` for IPv4:
`ALL_ONES ^ (ALL_ONES >> p)`, the mask of `p` leading one-bits. -/
def maskOfPfx (p : Nat) : Nat := 4294967295 ^^^ (4294967295 >>> p)

/-- CPython `ipaddress._prefix_from_ip_int`: strip the `czb m 32` trailing
zero bits and demand that what is left is all ones, returning the prefix
length `32 - czb m 32`; `none` models the `ValueError`. -/
def plenFromIpInt (m : Nat) : Option Nat :=
  if m >>> czb m 32 = 2 ^ (32 - czb m 32) - 1 then some (32 - czb m 32) else none

/-- CPython `ipaddress._prefix_from_ip_string`: parse as dotted decimal, try
the pattern as a netmask, otherwise try the complement (a hostmask). -/
def pfxFromIpChars (l : List Char) : Option Nat :=
  match ipIntFromChars l with
  | none => none
  | some n =>
    match plenFromIpInt n with
    | some p => some p
    | none => plenFromIpInt (n ^^^ 4294967295)

/-- CPython `ipaddress._prefix_from_prefix_string`: ASCII digits only, value
within [0, 32]. -/
def pfxFromPfxChars (l : List Char) : Option Nat :=
  if l.isEmpty then none
  else if !(l.all Char.isDigit) then none
  else if decVal l ≤ 32 then some (decVal l) else none

/-- CPython `ipaddress.IPv4Network._make_netmask` on a string argument: first
try a prefix-length number, on failure fall back to dotted netmask/hostmask. -/
def makeNetmask (l : List Char) : Option Nat :=
  match pfxFromPfxChars l with
  | some p => some p
  | none => pfxFromIpChars l

/-- An IPv4 network: the (already masked) network address and the length
of its mask. -/
structure Net where
  base : Nat
  plen : Nat
deriving DecidableEq, Repr

/-- Number of addresses of a network with the given mask length. -/
def blockSize (p : Nat) : Nat := 2 ^ (32 - p)

/-- Broadcast address: top address of the block. -/
def broadcastOf (n : Net) : Nat := n.base + (blockSize n.plen - 1)

/-- CPython `IPv4Network(s, strict=False)`: split on the optional slash
(at most one permitted), parse the address, resolve the mask, and mask the
host bits away (non-strict interpretation). A missing mask means /32. -/
def parseNetwork (s : String) : Option Net :=
  match splitChar '/' s.toList with
  | [a] => (ipIntFromChars a).map fun ip => ⟨ip &&& maskOfPfx 32, 32⟩
  | [a, m] =>
    match ipIntFromChars a, makeNetmask m with
    | some ip, some p => some ⟨ip &&& maskOfPfx p, p⟩
    | _, _ => none
  | _ => none

/-- One constructor per observable `raise` site of the Python engine. -/
inductive PyErr where
  /-- `ValueError("Máscara de sub-rede inválida")` in `netmask_to_cidr`. -/
  | invalidMask
  /-- `ValueError("CIDR deve estar entre 0 e 32")` in `cidr_to_netmask`. -/
  | invalidCidr
  /-- `ValueError("Rede inválida: ...")` in `calculate_network_info`. -/
  | invalidNetwork
  /-- `ValueError("Erro ao dividir rede: ...")` in `subnet_network`. -/
  | subnetError
  /-- `ValueError("Não é possível criar tantas sub-redes")` in `subnet_network`. -/
  | insufficientSpace
  /-- `ValueError("Não há espaço suficiente para N hosts")` in `calculate_vlsm`. -/
  | vlsmNoSpace
  /-- `ValueError("Não foi possível alocar sub-rede")` in `calculate_vlsm`. -/
  | vlsmNoAlloc
  /-- `ValueError("Erro no cálculo VLSM: ...")` in `calculate_vlsm`. -/
  | vlsmError
  /-- `ValueError("math domain error")` raised by `math.log2` on a
  non-positive argument and not caught by the calculator. -/
  | mathDomainError
  /-- An `AddressValueError` escaping uncaught (e.g. a second slash inside
  the interpolated netmask text). -/
  | uncaughtAddress
deriving DecidableEq, Repr

/-- Result of a Python call: a value or an exception. -/
inductive PyResult (α : Type) where
  | ok (val : α)
  | raises (e : PyErr)
deriving DecidableEq, Repr

/-- Sequencing of fallible calls. -/
def PyResult.andThen {α β : Type} (r : PyResult α) (f : α → PyResult β) : PyResult β :=
  match r with
  | .ok a => f a
  | .raises e => .raises e

/-- Source `cidr_to_netmask` (network_calculator.py:59-72): range-check the
prefix, build `(0xffffffff >> (32 - cidr)) << (32 - cidr)`, render dotted. -/
def cidr_to_netmask (c : Int) : PyResult String :=
  if ¬(0 ≤ c ∧ c ≤ 32) then .raises .invalidCidr
  else .ok (formatAddress ((4294967295 >>> (32 - c.toNat)) <<< (32 - c.toNat)))

/-- Source `netmask_to_cidr` (network_calculator.py:74-86): parse
`IPv4Network('0.0.0.0/' + s)` and return its prefix length; a
`NetmaskValueError` becomes `ValueError("Máscara de sub-rede inválida")`.
A slash inside `s` would make three slash-separated parts and raise an
uncaught `AddressValueError` instead. -/
def netmask_to_cidr (s : String) : PyResult Nat :=
  if s.toList.contains '/' then .raises .uncaughtAddress
  else
    match makeNetmask s.toList with
    | some p => .ok p
    | none => .raises .invalidMask

/-- Source `_get_ip_class` (network_calculator.py:265-291): classify by the
leading octet; octets 0 and 127 fall through to "Indefinida". -/
def getIpClass (a : Nat) : String :=
  let o := a / 16777216
  if 1 ≤ o ∧ o ≤ 126 then "A"
  else if 128 ≤ o ∧ o ≤ 191 then "B"
  else if 192 ≤ o ∧ o ≤ 223 then "C"
  else if 224 ≤ o ∧ o ≤ 239 then "D (Multicast)"
  else if 240 ≤ o ∧ o ≤ 255 then "E (Experimental)"
  else "Indefinida"

/-- Source `_is_private` (network_calculator.py:293-305): membership in
10.0.0.0/8, 172.16.0.0/12 or 192.168.0.0/16, written on address values. -/
def isPrivate (a : Nat) : Bool :=
  decide ((167772160 ≤ a ∧ a ≤ 184549375) ∨
    (2886729728 ≤ a ∧ a ≤ 2887778303) ∨
    (3232235520 ≤ a ∧ a ≤ 3232301055))

/-- The dictionary built by `calculate_network_info`; numeric fields carry
the underlying values that Python renders with `str` at the boundary. -/
structure NetworkInfo where
  rede : Nat
  mascara_cidr : Nat
  mascara_decimal : Nat
  broadcast : Nat
  primeiro_host : Nat
  ultimo_host : Nat
  total_hosts : Int
  total_enderecos : Nat
  classe : String
  tipo : String
deriving DecidableEq, Repr

/-- Source `calculate_network_info` (network_calculator.py:88-116). The two
guards reflect `IPv4Address` arithmetic: `network_address + 1` raises an
`AddressValueError` when it exceeds the 32-bit range and
`broadcast_address - 1` when it would go negative; both are caught by the
method and re-raised as `ValueError("Rede inválida: ...")`. -/
def calculate_network_info (s : String) : PyResult NetworkInfo :=
  match parseNetwork s with
  | none => .raises .invalidNetwork
  | some n =>
    if n.base = 4294967295 then .raises .invalidNetwork
    else if broadcastOf n = 0 then .raises .invalidNetwork
    else .ok
      { rede := n.base
        mascara_cidr := n.plen
        mascara_decimal := maskOfPfx n.plen
        broadcast := broadcastOf n
        primeiro_host := n.base + 1
        ultimo_host := broadcastOf n - 1
        total_hosts := (blockSize n.plen : Int) - 2
        total_enderecos := blockSize n.plen
        classe := getIpClass n.base
        tipo := if isPrivate n.base then "Privada" else "Pública" }

/-- Ceiling of the base-2 logarithm for positive arguments, the value of
`math.ceil(math.log2(n))`: zero for `n = 1`, else the bit length of `n - 1`.
(For the astronomically large `n` where floating-point `log2` could round an
off-by-one, every caller in the source is already past its overflow check,
so the embedded integer version is observationally faithful.) -/
def clog2 (n : Nat) : Nat := bitLen (n - 1)

/-- One entry of the list built by `subnet_network`. -/
structure SubnetInfo where
  subnet_id : Nat
  rede : Nat
  cidr : Nat
  mascara : Nat
  broadcast : Nat
  primeiro_host : Nat
  ultimo_host : Nat
  hosts_disponiveis : Int
deriving DecidableEq, Repr

/-- Build one `subnet_network` record; `none` models the `AddressValueError`
raised by `network_address + 1` (top /32) or `broadcast_address - 1`
(bottom /32). -/
def renderSubnetInfo (sid : Nat) (sn : Net) : Option SubnetInfo :=
  if sn.base = 4294967295 then none
  else if broadcastOf sn = 0 then none
  else some
    { subnet_id := sid
      rede := sn.base
      cidr := sn.plen
      mascara := maskOfPfx sn.plen
      broadcast := broadcastOf sn
      primeiro_host := sn.base + 1
      ultimo_host := broadcastOf sn - 1
      hosts_disponiveis := (blockSize sn.plen : Int) - 2 }

/-- The record-building loop of `subnet_network`: 1-based ordinals in
enumeration order, aborting on the first rendering failure (whose caught
`AddressValueError` becomes `ValueError("Erro ao dividir rede: ...")`). -/
def renderSubnets : Nat → List Net → PyResult (List SubnetInfo)
  | _, [] => .ok []
  | i, sn :: rest =>
    match renderSubnetInfo (i + 1) sn with
    | none => .raises .subnetError
    | some info => (renderSubnets (i + 1) rest).andThen fun l => .ok (info :: l)

/-- Source `subnet_network` (network_calculator.py:118-158): parse, compute
`bits_needed = ceil(log2(num))` (a `math domain error` escapes for a
non-positive count), reject a prefix beyond 32, enumerate the subnets of the
new prefix in ascending order and keep the first `num`. -/
def subnet_network (s : String) (num : Int) : PyResult (List SubnetInfo) :=
  match parseNetwork s with
  | none => .raises .subnetError
  | some net =>
    if num ≤ 0 then .raises .mathDomainError
    else if 32 < net.plen + clog2 num.toNat then .raises .insufficientSpace
    else
      renderSubnets 0
        (((List.range (2 ^ clog2 num.toNat)).map fun i =>
          Net.mk (net.base + i * blockSize (net.plen + clog2 num.toNat))
            (net.plen + clog2 num.toNat)).take num.toNat)

/-- Source `ip_in_network` (network_calculator.py:183-198): parse both
arguments, test `network_address <= ip <= broadcast_address`
(`IPv4Network.__contains__`), and swallow every parse failure as `False`. -/
def ip_in_network (ip s : String) : Bool :=
  match parseIPv4 ip, parseNetwork s with
  | some a, some n => decide (n.base ≤ a ∧ a ≤ broadcastOf n)
  | _, _ => false

/-- One entry of the list built by `calculate_vlsm`. -/
structure VlsmRecord where
  ordem_original : Nat
  hosts_solicitados : Int
  rede : Nat
  cidr : Nat
  mascara : Nat
  broadcast : Nat
  primeiro_host : Nat
  ultimo_host : Nat
  hosts_disponiveis : Int
deriving DecidableEq, Repr

/-- Build one VLSM record; `none` models the same two `AddressValueError`
overflow cases as `renderSubnetInfo`. -/
def renderVlsm (ordem : Nat) (hosts : Int) (sn : Net) : Option VlsmRecord :=
  if sn.base = 4294967295 then none
  else if broadcastOf sn = 0 then none
  else some
    { ordem_original := ordem
      hosts_solicitados := hosts
      rede := sn.base
      cidr := sn.plen
      mascara := maskOfPfx sn.plen
      broadcast := broadcastOf sn
      primeiro_host := sn.base + 1
      ultimo_host := broadcastOf sn - 1
      hosts_disponiveis := (blockSize sn.plen : Int) - 2 }

/-- Lower half produced by `IPv4Network.subnets()`. -/
def lowerHalf (n : Net) : Net := ⟨n.base, n.plen + 1⟩

/-- Upper half produced by `IPv4Network.subnets()`. -/
def upperHalf (n : Net) : Net := ⟨n.base + blockSize (n.plen + 1), n.plen + 1⟩

/-- CPython `IPv4Network.subnet_of`: range containment by endpoints. -/
def subnetOf (a b : Net) : Bool :=
  decide (b.base ≤ a.base ∧ broadcastOf a ≤ broadcastOf b)

/-- The bisection loop of CPython `IPv4Network.address_exclude`, yielding the
sibling of whichever half still contains `other`; the fuel (33 suffices, the
depth is at most the prefix-length difference) makes the recursion
structural, and the empty list stands for the loop's unreachable
`ValueError` branches. -/
def excludeAux : Nat → Net → Net → Net → List Net
  | 0, _, _, _ => []
  | f + 1, s1, s2, other =>
    if s1 = other then [s2]
    else if s2 = other then [s1]
    else if subnetOf other s1 then s2 :: excludeAux f (lowerHalf s1) (upperHalf s1) other
    else if subnetOf other s2 then s1 :: excludeAux f (lowerHalf s2) (upperHalf s2) other
    else []

/-- CPython `IPv4Network.address_exclude(other)` as a list in yield order:
empty when `other` equals the whole block, otherwise the maximal free
fragments, largest (the far sibling) first. -/
def addressExclude (self other : Net) : List Net :=
  if !(subnetOf other self) then []
  else if other = self then []
  else excludeAux 33 (lowerHalf self) (upperHalf self) other

/-- Final reordering of `calculate_vlsm`:
`result.sort(key=lambda x: x['ordem_original'])`. -/
def sortByOrdem (l : List VlsmRecord) : List VlsmRecord :=
  List.insertionSort (fun a b => a.ordem_original ≤ b.ordem_original) l

/-- The allocation loop of `calculate_vlsm` over the descending-sorted,
index-tagged requirements: compute `32 - ceil(log2(hosts+2))`, fail when the
current free block is too small, carve the lowest subnet, render its record,
subtract it, move to the first remaining fragment — and when nothing
remains, `break` (returning whatever was allocated so far, reordered). -/
def vlsmLoop : List (Nat × Int) → Net → List VlsmRecord → PyResult (List VlsmRecord)
  | [], _, acc => .ok (sortByOrdem acc)
  | (idx, hosts) :: rest, cur, acc =>
    if hosts + 2 ≤ 0 then .raises .mathDomainError
    else
      let bits := clog2 (hosts + 2).toNat
      let q : Int := 32 - (bits : Int)
      if q < (cur.plen : Int) then .raises .vlsmNoSpace
      else
        let sn := Net.mk cur.base q.toNat
        match renderVlsm (idx + 1) hosts sn with
        | none => .raises .vlsmError
        | some record =>
          match addressExclude cur sn with
          | [] => .ok (sortByOrdem (acc ++ [record]))
          | nxt :: _ => vlsmLoop rest nxt (acc ++ [record])

/-- Python `sorted(enumerate(reqs), key=lambda x: x[1], reverse=True)`:
stable descending sort of the index-tagged requirements. -/
def reqSort (l : List (Nat × Int)) : List (Nat × Int) :=
  List.insertionSort (fun a b => b.2 ≤ a.2) l

/-- Source `calculate_vlsm` (network_calculator.py:200-263). -/
def calculate_vlsm (s : String) (reqs : List Int) : PyResult (List VlsmRecord) :=
  match parseNetwork s with
  | none => .raises .vlsmError
  | some net => vlsmLoop (reqSort reqs.enum) net []

/-- CPython `IPv4Network.supernet()` with the default one-step difference:
a /0 is returned unchanged, otherwise mask the base with the widened
netmask. -/
def supernetOfNet (n : Net) : Net :=
  if n.plen = 0 then n
  else ⟨n.base &&& (maskOfPfx n.plen <<< 1), n.plen - 1⟩

/-- Lookup in the `subnets` dictionary of
`ipaddress._collapse_addresses_internal`, modelled as an association list in
insertion order. -/
def dictGet (k : Net) (d : List (Net × Net)) : Option Net :=
  (d.find? fun e => decide (e.1 = k)).map (·.2)

/-- Deletion of a key from the `subnets` dictionary (keys are unique). -/
def dictErase (k : Net) : List (Net × Net) → List (Net × Net)
  | [] => []
  | e :: rest => if e.1 = k then rest else e :: dictErase k rest

/-- Termination measure for the merge loop: each processed element either
moves into the dictionary (weight drops by 1), is dropped as a duplicate, or
merges two siblings into one parent. -/
def mergeWeight (tm : List Net) (d : List (Net × Net)) : Nat :=
  (tm.map fun n => 2 * n.plen + 3).sum + (d.map fun e => 2 * e.2.plen + 2).sum

/-- The `while to_merge:` loop of `_collapse_addresses_internal`. `to_merge`
is kept head-first (`list.pop()` takes the last element, so the initial list
is reversed and pushes become conses). The fuel dominates `mergeWeight`,
which strictly decreases at every step, so a call with fuel above the
initial weight never runs out. -/
def mergeLoopF : Nat → List Net → List (Net × Net) → List (Net × Net)
  | 0, _, d => d
  | _ + 1, [], d => d
  | fuel + 1, net :: rest, d =>
    let sup := supernetOfNet net
    match dictGet sup d with
    | none => mergeLoopF fuel rest (d ++ [(sup, net)])
    | some existing =>
      if existing = net then mergeLoopF fuel rest d
      else mergeLoopF fuel (sup :: rest) (dictErase sup d)

/-- Sort order used by `sorted(subnets.values())`: the CPython network key
`(network_address, netmask)`. -/
def netLe (a b : Net) : Prop :=
  a.base < b.base ∨ (a.base = b.base ∧ maskOfPfx a.plen ≤ maskOfPfx b.plen)

instance : DecidableRel netLe := fun a b => by
  unfold netLe; infer_instance

instance : IsTotal Net netLe := ⟨by
  intro a b
  unfold netLe
  rcases Nat.lt_trichotomy a.base b.base with h | h | h
  · exact Or.inl (Or.inl h)
  · rcases Nat.le_total (maskOfPfx a.plen) (maskOfPfx b.plen) with hm | hm
    · exact Or.inl (Or.inr ⟨h, hm⟩)
    · exact Or.inr (Or.inr ⟨h.symm, hm⟩)
  · exact Or.inr (Or.inl h)⟩

instance : IsTrans Net netLe := ⟨by
  intro a b c hab hbc
  unfold netLe at hab hbc ⊢
  rcases hab with h1 | ⟨h1, h1m⟩ <;> rcases hbc with h2 | ⟨h2, h2m⟩
  · exact Or.inl (by omega)
  · exact Or.inl (by omega)
  · exact Or.inl (by omega)
  · exact Or.inr ⟨by omega, le_trans h1m h2m⟩⟩

/-- The final pass of `_collapse_addresses_internal`: walk the sorted
networks and skip each one whose broadcast does not exceed the broadcast of
the last yielded network (it is subsumed by it). -/
def subsumeFilter : List Net → Option Net → List Net
  | [], _ => []
  | n :: rest, none => n :: subsumeFilter rest (some n)
  | n :: rest, some last =>
    if broadcastOf n ≤ broadcastOf last then subsumeFilter rest (some last)
    else n :: subsumeFilter rest (some n)

/-- Block-size exponent chosen by `ipaddress.summarize_address_range`:
bounded by the alignment of `first` and by the length of the remaining
range. -/
def sumNbits (first last : Nat) : Nat :=
  min (czb first 32) (bitLen (last - first + 1) - 1)

/-- CPython `ipaddress.summarize_address_range(first, last)`: greedily emit
the largest aligned block starting at `first` that fits in the remaining
range, stopping after the block that reaches the top of the address space. -/
def summarize (first last : Nat) : List Net :=
  if last < first then []
  else if first + 2 ^ sumNbits first last - 1 = 4294967295 then
    [⟨first, 32 - sumNbits first last⟩]
  else
    ⟨first, 32 - sumNbits first last⟩ :: summarize (first + 2 ^ sumNbits first last) last
termination_by last + 1 - first
decreasing_by
  have h2 : 0 < 2 ^ sumNbits first last := pow_pos (by omega) _
  omega

/-- The consecutive-run scan of `ipaddress.collapse_addresses` over the
sorted, deduplicated addresses: extend the current run while the next
address is adjacent, otherwise summarize the finished run and start anew. -/
def runsLoop : Nat → Nat → List Nat → List Net
  | first, last, [] => summarize first last
  | first, last, ip :: rest =>
    if ip = last + 1 then runsLoop first ip rest
    else summarize first last ++ runsLoop ip ip rest

/-- Collect the CIDR blocks covering the `/32`-derived addresses. -/
def collectAddrs : List Nat → List Net
  | [] => []
  | h :: t => runsLoop h h t

/-- Python `sorted(set(ips))`. -/
def sortedIps (l : List Nat) : List Nat :=
  List.insertionSort (fun a b => a ≤ b) l.dedup

/-- CPython `ipaddress.collapse_addresses` on IPv4 networks: `/32` networks
travel as single addresses (deduplicated, sorted, runs summarized into
blocks), everything else as networks; then the sibling-merge loop, the sort,
and the subsumption filter. -/
def collapseNets (inputs : List Net) : List Net :=
  let ips := (inputs.filter fun n => decide (n.plen = 32)).map (·.base)
  let blocks := inputs.filter fun n => !(decide (n.plen = 32))
  let initial := (collectAddrs (sortedIps ips) ++ blocks).reverse
  let d := mergeLoopF (mergeWeight initial [] + 1) initial []
  subsumeFilter (List.insertionSort netLe (d.map (·.2))) none

/-- Decision made by `supernet_networks` after collapsing: a single covering
network, or `None`. -/
def supernetNets (inputs : List Net) : Option Net :=
  match collapseNets inputs with
  | [b] => some b
  | _ => none

/-- The list comprehension parsing every input network; the first failure
aborts the whole call. -/
def parseAllNets : List String → Option (List Net)
  | [] => some []
  | s :: rest =>
    match parseNetwork s, parseAllNets rest with
    | some n, some l => some (n :: l)
    | _, _ => none

/-- Source `supernet_networks` (network_calculator.py:160-181): parse all
inputs (any `AddressValueError`/`NetmaskValueError` is swallowed into
`None`), collapse, and return the single surviving network — also `None`
when several remain. -/
def supernet_networks (ss : List String) : Option String :=
  match parseAllNets ss with
  | none => none
  | some nets =>
    (supernetNets nets).map fun b =>
      formatAddress b.base ++ "/" ++ String.mk (digitsOf b.plen)

/-- Membership of an address in a network block. -/
def memNet (a : Nat) (n : Net) : Prop := n.base ≤ a ∧ a ≤ broadcastOf n

/-- Membership of an address in the union of a list of blocks. -/
def memUnion (a : Nat) (l : List Net) : Prop := ∃ n ∈ l, memNet a n

/-- Well-formed IPv4 network: mask length at most 32, base aligned to the
block size, block inside the 32-bit space. -/
def wfNet (n : Net) : Prop :=
  n.plen ≤ 32 ∧ blockSize n.plen ∣ n.base ∧ n.base + blockSize n.plen ≤ 4294967296

instance (n : Net) : Decidable (wfNet n) := by
  unfold wfNet
  infer_instance

/-- Spec-side notion for the aggregator: the union of the inputs is exactly
one CIDR block, i.e. the minimal set of disjoint CIDR blocks covering that
union has exactly one element. -/
def coverOne (l : List Net) : Prop :=
  ∃ b : Net, wfNet b ∧ ∀ a, memNet a b ↔ memUnion a l

/-- Disjointness of blocks. -/
def disjNets (m n : Net) : Prop := ∀ a, ¬ (memNet a m ∧ memNet a n)

/-- Invariant of the merge-loop dictionary: every entry holds a well-formed
network keyed by its immediate supernet, and keys are unique. -/
def dictInv (d : List (Net × Net)) : Prop :=
  (∀ e ∈ d, supernetOfNet e.2 = e.1 ∧ wfNet e.2) ∧ (d.map Prod.fst).Nodup

end NetCalc

namespace NetCalc

/-! Theorems. General lemmas about the embedded code come first, the claim
theorems and their witnesses afterwards. -/

theorem parseAllNets_of_mem_none {ss : List String} {s : String}
    (hs : s ∈ ss) (h : parseNetwork s = none) : parseAllNets ss = none := by
  induction ss with
  | nil => cases hs
  | cons t rest ih =>
    rcases List.mem_cons.mp hs with rfl | hmem
    · unfold parseAllNets; rw [h]
    · unfold parseAllNets
      cases hp : parseNetwork t <;> rw [ih hmem]

/-- Claim C4 — (confirmed) for every prefix length in [0, 32], converting to
a dotted netmask with `cidr_to_netmask` and back with `netmask_to_cidr`
returns the original prefix length, including 0 and 32. -/
theorem c4_roundtrip (p : Nat) (hp : p ≤ 32) :
    (cidr_to_netmask (p : Int)).andThen netmask_to_cidr = .ok p := by
  have h : ∀ q : Nat, q < 33 →
      (cidr_to_netmask (q : Int)).andThen netmask_to_cidr = .ok q := by decide
  exact h p (by omega)

theorem c4_roundtrip_witness :
    (0 : Nat) ≤ 32 ∧ (24 : Nat) ≤ 32 ∧ (32 : Nat) ≤ 32 ∧
      (cidr_to_netmask ((0 : Nat) : Int)).andThen netmask_to_cidr = .ok 0 ∧
      (cidr_to_netmask ((24 : Nat) : Int)).andThen netmask_to_cidr = .ok 24 ∧
      (cidr_to_netmask ((32 : Nat) : Int)).andThen netmask_to_cidr = .ok 32 :=
  ⟨by decide, by decide, by decide,
    c4_roundtrip 0 (by decide), c4_roundtrip 24 (by decide), c4_roundtrip 32 (by decide)⟩

/-- Claim C10 — (confirmed) when either argument of `ip_in_network` fails to
parse, the call returns `false`; the embedded function is total, matching
the source, whose `except` clause swallows every parse error. -/
theorem c10_membership_total (ip s : String)
    (h : parseIPv4 ip = none ∨ parseNetwork s = none) :
    ip_in_network ip s = false := by
  unfold ip_in_network
  cases hip : parseIPv4 ip with
  | none => rfl
  | some a =>
    cases hs : parseNetwork s with
    | none => rfl
    | some n => rcases h with h | h <;> simp_all

theorem c10_membership_total_witness :
    (parseIPv4 "299.1.1.1" = none ∨ parseNetwork "10.0.0.0/8" = none) ∧
      (parseIPv4 "8.8.8.8" = none ∨ parseNetwork "10.0.0.0/33" = none) ∧
      ip_in_network "299.1.1.1" "10.0.0.0/8" = false ∧
      ip_in_network "8.8.8.8" "10.0.0.0/33" = false :=
  ⟨Or.inl (by decide), Or.inr (by decide),
    c10_membership_total _ _ (Or.inl (by decide)),
    c10_membership_total _ _ (Or.inr (by decide))⟩

/-- Claim C9 — (confirmed) for every valid network and every non-positive
count, `subnet_network` fails with the input error raised by
`math.log2` (`ValueError: math domain error`), which is distinct from
`InsufficientSpace`, and no list is returned. -/
theorem c9_nonpositive_count (s : String) (net : Net) (num : Int)
    (hs : parseNetwork s = some net) (h : num ≤ 0) :
    subnet_network s num = .raises .mathDomainError ∧
      (PyErr.mathDomainError ≠ PyErr.insufficientSpace) := by
  refine ⟨?_, by decide⟩
  unfold subnet_network
  rw [hs]
  simp [h]

theorem c9_nonpositive_count_witness :
    (parseNetwork "192.168.1.0/24" = some ⟨3232235776, 24⟩) ∧
      ((0 : Int) ≤ 0) ∧ ((-3 : Int) ≤ 0) ∧
      subnet_network "192.168.1.0/24" 0 = .raises .mathDomainError ∧
      subnet_network "192.168.1.0/24" (-3) = .raises .mathDomainError :=
  ⟨by decide, by decide, by decide,
    (c9_nonpositive_count _ ⟨3232235776, 24⟩ 0 (by decide) (by decide)).1,
    (c9_nonpositive_count _ ⟨3232235776, 24⟩ (-3) (by decide) (by decide)).1⟩

/-- Claim C8 — (counterexample) a list containing an unparsable string makes
`supernet_networks` return `None`, the very same outcome that the
no-single-supernet case produces: the failure is not reported at the point
of the call and is not distinct from `NoSingleSupernet`. -/
theorem c8_counterexample :
    supernet_networks ["300.1.1.0/24"] = none ∧
      supernet_networks ["192.168.1.0/26", "192.168.3.0/26"] = none ∧
      parseNetwork "300.1.1.0/24" = none := by
  refine ⟨by decide, by decide, by decide⟩

/-- Claim C8 — (amended) when any input string fails to parse, the
exception is swallowed and `supernet_networks` returns `None`, an outcome
indistinguishable from the legitimate `NoSingleSupernet` result. -/
theorem c8_parse_failure_none (ss : List String)
    (h : ∃ s ∈ ss, parseNetwork s = none) :
    supernet_networks ss = none := by
  obtain ⟨s, hmem, hnone⟩ := h
  unfold supernet_networks
  rw [parseAllNets_of_mem_none hmem hnone]

theorem c8_parse_failure_none_witness :
    (∃ s ∈ ["10.0.0.0/24", "300.1.1.0/24"], parseNetwork s = none) ∧
      supernet_networks ["10.0.0.0/24", "300.1.1.0/24"] = none :=
  ⟨⟨"300.1.1.0/24", by decide, by decide⟩,
    c8_parse_failure_none _ ⟨"300.1.1.0/24", by decide, by decide⟩⟩

/-- Claim C3 — (counterexample) `calculate_network_info` on the /32 network
1.1.1.1/32 reports `total_hosts = -1`: the host count is `totalAddresses - 2`
with no clamping, so a /32 reports a negative count, not zero. -/
theorem c3_counterexample :
    calculate_network_info "1.1.1.1/32" =
      .ok ⟨16843009, 32, 4294967295, 16843009, 16843010, 16843008, -1, 1, "A", "Pública"⟩ ∧
      (-1 : Int) < 0 := by
  refine ⟨by decide, by decide⟩

/-- Claim C3 — (amended) for every valid network (except 0.0.0.0/32 and
255.255.255.255/32, whose first/last-host arithmetic leaves the 32-bit range
and turns into `InvalidNetwork`), the reported host count is
`totalAddresses - 2` with no clamping: a /31 reports 0 and a /32 reports
-1, never a clamped value. -/
theorem c3_total_hosts_unclamped (s : String) (n : Net)
    (hs : parseNetwork s = some n)
    (h1 : n.base ≠ 4294967295) (h2 : broadcastOf n ≠ 0) :
    ∃ info, calculate_network_info s = .ok info ∧
      info.total_hosts = (blockSize n.plen : Int) - 2 ∧
      info.total_enderecos = blockSize n.plen ∧
      (n.plen = 31 → info.total_hosts = 0) ∧
      (n.plen = 32 → info.total_hosts = -1) := by
  unfold calculate_network_info
  rw [hs]
  dsimp only
  rw [if_neg h1, if_neg h2]
  refine ⟨_, rfl, rfl, rfl, ?_, ?_⟩
  · intro h; rw [h]; norm_num [blockSize]
  · intro h; rw [h]; norm_num [blockSize]

theorem c3_total_hosts_unclamped_witness :
    (parseNetwork "10.0.0.0/31" = some ⟨167772160, 31⟩) ∧
      (∃ info, calculate_network_info "10.0.0.0/31" = .ok info ∧
        info.total_hosts = (blockSize 31 : Int) - 2 ∧
        info.total_enderecos = blockSize 31 ∧
        ((31 : Nat) = 31 → info.total_hosts = 0) ∧
        ((31 : Nat) = 32 → info.total_hosts = -1)) :=
  ⟨by decide,
    c3_total_hosts_unclamped "10.0.0.0/31" ⟨167772160, 31⟩ (by decide) (by decide) (by decide)⟩

/-- Claim C1 — (counterexample) `calculate_vlsm("10.0.0.0/30", [2, 2])`
allocates the whole block to the first requirement, finds no remaining
fragment, and returns the one-record partial list instead of failing with
`InsufficientSpace` while the second requirement is still pending. -/
theorem c1_counterexample :
    calculate_vlsm "10.0.0.0/30" [2, 2] =
      .ok [⟨1, 2, 167772160, 30, 4294967292, 167772163, 167772161, 167772162, 2⟩] ∧
      [(2 : Int), 2].length = 2 := by
  refine ⟨by decide, by decide⟩

/-- Claim C1 — (amended) whenever an allocation of the VLSM loop consumes
the entire remaining free block (so that `address_exclude` leaves no
fragment) while further requirements are still pending, the loop `break`s
and returns the partial list of allocations made so far (reordered by
original index), silently dropping the pending requirements — it does not
fail with `InsufficientSpace`. The conclusion does not depend on `rest`. -/
theorem c1_partial_result (idx : Nat) (hosts : Int) (rest : List (Nat × Int))
    (cur : Net) (acc : List VlsmRecord)
    (h0 : ¬ hosts + 2 ≤ 0)
    (hq : (32 : Int) - (clog2 (hosts + 2).toNat : Int) = (cur.plen : Int))
    (hb : cur.base ≠ 4294967295) (hz : broadcastOf cur ≠ 0) :
    ∃ record, renderVlsm (idx + 1) hosts cur = some record ∧
      vlsmLoop ((idx, hosts) :: rest) cur acc = .ok (sortByOrdem (acc ++ [record])) := by
  have hsn : Net.mk cur.base ((32 : Int) - (clog2 (hosts + 2).toNat : Int)).toNat = cur := by
    rw [hq]
    cases cur
    simp
  have hrender : renderVlsm (idx + 1) hosts cur =
      some ⟨idx + 1, hosts, cur.base, cur.plen, maskOfPfx cur.plen, broadcastOf cur,
        cur.base + 1, broadcastOf cur - 1, (blockSize cur.plen : Int) - 2⟩ := by
    unfold renderVlsm
    rw [if_neg hb, if_neg hz]
  refine ⟨_, hrender, ?_⟩
  unfold vlsmLoop
  rw [if_neg h0]
  have hnotlt : ¬ ((32 : Int) - (clog2 (hosts + 2).toNat : Int) < (cur.plen : Int)) := by
    omega
  rw [if_neg hnotlt]
  rw [hsn]
  have hexcl : addressExclude cur cur = [] := by
    unfold addressExclude
    have hsub : subnetOf cur cur = true := by simp [subnetOf]
    rw [hsub]
    simp
  simp only [hrender, hexcl]

theorem c1_partial_result_witness :
    (¬ (2 : Int) + 2 ≤ 0) ∧
      ((32 : Int) - (clog2 ((2 : Int) + 2).toNat : Int) = ((Net.mk 167772160 30).plen : Int)) ∧
      (∃ record, renderVlsm (0 + 1) 2 (Net.mk 167772160 30) = some record ∧
        vlsmLoop [(0, (2 : Int)), (1, 2)] (Net.mk 167772160 30) [] =
          .ok (sortByOrdem ([] ++ [record]))) :=
  ⟨by decide, by decide,
    c1_partial_result 0 2 [(1, 2)] (Net.mk 167772160 30) []
      (by decide) (by decide) (by decide) (by decide)⟩

/-- Claim C5 — (confirmed) `calculate_vlsm("192.168.1.0/24", [50, 25, 10])`
returns exactly three records in original request order (ordinals 1, 2, 3):
the 50-host requirement gets 192.168.1.0/26 with 62 usable hosts, the
25-host requirement 192.168.1.128/27 with 30, the 10-host requirement
192.168.1.192/28 with 14; the three blocks are pairwise disjoint and each
lies inside 192.168.1.0/24. -/
theorem c5_vlsm_example :
    calculate_vlsm "192.168.1.0/24" [50, 25, 10] =
      .ok [⟨1, 50, 3232235776, 26, 4294967232, 3232235839, 3232235777, 3232235838, 62⟩,
           ⟨2, 25, 3232235904, 27, 4294967264, 3232235935, 3232235905, 3232235934, 30⟩,
           ⟨3, 10, 3232235968, 28, 4294967280, 3232235983, 3232235969, 3232235982, 14⟩] ∧
      (3232235839 : Nat) < 3232235904 ∧ (3232235935 : Nat) < 3232235968 ∧
      (3232235776 : Nat) ≤ 3232235776 ∧ (3232235983 : Nat) ≤ 3232236031 ∧
      parseNetwork "192.168.1.0/24" = some ⟨3232235776, 24⟩ := by
  refine ⟨by decide, by decide, by decide, by decide, by decide, by decide⟩

/-- Claim C6 — (counterexample) splitting 255.255.255.252/30 into 4 subnets
satisfies the spec's space condition (`newPrefix = 32 ≤ 32`), yet the code
raises `ValueError("Erro ao dividir rede: ...")` — rendering the top /32
subnet overflows `network_address + 1` — instead of returning the 4
records. -/
theorem c6_counterexample :
    subnet_network "255.255.255.252/30" 4 = .raises .subnetError ∧
      (30 : Nat) + clog2 (4 : Int).toNat ≤ 32 := by
  refine ⟨by decide, by decide⟩

/-- Claim C2 — (counterexample) the hostmask pattern 0.0.0.255 is not of the
contiguous ones-then-zeros form, yet `netmask_to_cidr` accepts it and
returns 24 instead of failing with `InvalidMask`. -/
theorem c2_counterexample :
    netmask_to_cidr "0.0.0.255" = .ok 24 ∧
      formatAddress 255 = "0.0.0.255" ∧
      (∀ p : Nat, p ≤ 32 → (255 : Nat) ≠ maskOfPfx p) := by
  refine ⟨by decide, by decide, ?_⟩
  have h : ∀ p : Nat, p < 33 → (255 : Nat) ≠ maskOfPfx p := by decide
  exact fun p hp => h p (by omega)

theorem testBit_split (v a b i : Nat) (hb : b < 2 ^ v) :
    (2 ^ v * a + b).testBit i = if i < v then b.testBit i else a.testBit (i - v) := by
  rcases Nat.lt_or_ge i v with hi | hi
  · rw [if_pos hi, Nat.testBit_to_div_mod, Nat.testBit_to_div_mod]
    have h1 : 2 ^ v * a = 2 ^ i * (2 * (2 ^ (v - i - 1) * a)) := by
      rw [← mul_assoc, ← mul_assoc, ← pow_succ]
      rw [← pow_add]
      congr 2
      omega
    rw [h1, Nat.mul_add_div (Nat.pos_pow_of_pos i (by omega)), Nat.add_comm,
      Nat.add_mul_mod_self_left]
  · rw [if_neg (by omega), Nat.testBit_to_div_mod, Nat.testBit_to_div_mod]
    have h1 : 2 ^ i = 2 ^ v * 2 ^ (i - v) := by rw [← pow_add]; congr 1; omega
    rw [h1, ← Nat.div_div_eq_div_mul, Nat.mul_add_div (Nat.pos_pow_of_pos v (by omega)),
      Nat.div_eq_of_lt hb, Nat.add_zero]

theorem land_split (v a b c d : Nat) (hb : b < 2 ^ v) (hd : d < 2 ^ v) :
    (2 ^ v * a + b) &&& (2 ^ v * c + d) = 2 ^ v * (a &&& c) + (b &&& d) := by
  apply Nat.eq_of_testBit_eq
  intro i
  rw [Nat.testBit_land, testBit_split v a b i hb, testBit_split v c d i hd,
    testBit_split v (a &&& c) (b &&& d) i (Nat.and_lt_two_pow b hd)]
  rcases Nat.lt_or_ge i v with hi | hi
  · rw [if_pos hi, if_pos hi, if_pos hi, Nat.testBit_land]
  · rw [if_neg (by omega), if_neg (by omega), if_neg (by omega), Nat.testBit_land]

theorem land_split_right (v a b c : Nat) (hb : b < 2 ^ v) :
    (2 ^ v * a + b) &&& (2 ^ v * c) = 2 ^ v * (a &&& c) := by
  have hv : 0 < 2 ^ v := Nat.pos_pow_of_pos v (by omega)
  have h := land_split v a b c 0 hb (by omega)
  rw [Nat.add_zero] at h
  rw [h]
  simp

theorem testBit_mul_pow (v a i : Nat) :
    (2 ^ v * a).testBit i = if i < v then false else a.testBit (i - v) := by
  have hv : 0 < 2 ^ v := Nat.pos_pow_of_pos v (by omega)
  have h := testBit_split v a 0 i hv
  rw [Nat.add_zero] at h
  rw [h]
  rcases Nat.lt_or_ge i v with hi | hi
  · rw [if_pos hi, if_pos hi, Nat.zero_testBit]
  · rw [if_neg (by omega), if_neg (by omega)]

theorem xor_land_trailing (v o : Nat) (ho : Odd o) :
    (2 ^ v * o - 1) ^^^ ((2 ^ v * o - 1) &&& (2 ^ v * o)) = 2 ^ v - 1 := by
  obtain ⟨w, hw⟩ := ho
  have hv : 0 < 2 ^ v := Nat.pos_pow_of_pos v (by omega)
  have hm1 : 2 ^ v * o - 1 = 2 ^ v * (o - 1) + (2 ^ v - 1) := by
    have h5 : o - 1 + 1 = o := by omega
    have h6 : 2 ^ v * o = 2 ^ v * (o - 1) + 2 ^ v := by
      calc 2 ^ v * o = 2 ^ v * (o - 1 + 1) := by rw [h5]
        _ = 2 ^ v * (o - 1) + 2 ^ v := by ring
    omega
  apply Nat.eq_of_testBit_eq
  intro i
  rw [Nat.testBit_xor, hm1, land_split_right v (o - 1) (2 ^ v - 1) o (by omega)]
  rw [testBit_split v (o - 1) (2 ^ v - 1) i (by omega), testBit_mul_pow,
    Nat.testBit_two_pow_sub_one]
  rcases Nat.lt_or_ge i v with hi | hi
  · rw [if_pos hi, if_pos hi]
    simp [hi, Nat.testBit_two_pow_sub_one]
  · rw [if_neg (by omega), if_neg (by omega), Nat.testBit_land]
    have hoe : o - 1 = 2 * w := by omega
    rcases Nat.eq_zero_or_pos (i - v) with hj | hj
    · rw [hj, hoe]
      have hb0 : (2 * w).testBit 0 = false := by
        rw [Nat.testBit_to_div_mod]
        simp [Nat.mul_mod_right]
      rw [hb0]
      have hni : ¬ i < v := by omega
      simp [hni]
    · obtain ⟨j, hjj⟩ := Nat.exists_eq_add_of_le hj
      have hsplit : ∀ x : Nat, x.testBit (1 + j) = (x / 2).testBit j := by
        intro x
        rw [Nat.add_comm 1 j, Nat.testBit_add_one]
      rw [hjj, hsplit, hsplit, hoe, hw]
      have h2 : 2 * w / 2 = w := by omega
      have h3 : (2 * w + 1) / 2 = w := by omega
      rw [h2, h3]
      have hni : ¬ i < v := by omega
      simp [hni]

theorem bitLenAux_le_iff (f : Nat) : ∀ n k : Nat, n ≤ f → (bitLenAux f n ≤ k ↔ n < 2 ^ k) := by
  induction f with
  | zero =>
    intro n k hf
    have : n = 0 := by omega
    subst this
    simp [bitLenAux, Nat.pos_pow_of_pos]
  | succ f ih =>
    intro n k hf
    by_cases h0 : n = 0
    · subst h0
      simp [bitLenAux, Nat.pos_pow_of_pos]
    · rw [show bitLenAux (f + 1) n = if n = 0 then 0 else bitLenAux f (n / 2) + 1 from rfl,
        if_neg h0]
      cases k with
      | zero =>
        constructor
        · omega
        · intro hk
          omega
      | succ k =>
        rw [Nat.add_le_add_iff_right, ih (n / 2) k (by omega)]
        rw [Nat.div_lt_iff_lt_mul (by omega : 0 < 2)]
        rw [pow_succ]

theorem bitLen_le_iff (n k : Nat) : bitLen n ≤ k ↔ n < 2 ^ k :=
  bitLenAux_le_iff n n k (Nat.le_refl n)

theorem bitLen_two_pow_sub_one (v : Nat) : bitLen (2 ^ v - 1) = v := by
  have h1 : bitLen (2 ^ v - 1) ≤ v := by
    rw [bitLen_le_iff]
    have := Nat.one_le_two_pow (n := v)
    omega
  have h2 : v ≤ bitLen (2 ^ v - 1) := by
    by_contra h
    push_neg at h
    have h3 := (bitLen_le_iff (2 ^ v - 1) (bitLen (2 ^ v - 1))).mp (Nat.le_refl _)
    have h4 : 2 ^ bitLen (2 ^ v - 1) * 2 ≤ 2 ^ v := by
      rw [← pow_succ]
      exact Nat.pow_le_pow_right (by omega) (by omega)
    have := Nat.one_le_two_pow (n := bitLen (2 ^ v - 1))
    omega
  omega

theorem czb_two_pow_mul_odd (v o : Nat) (ho : Odd o) :
    czb (2 ^ v * o) 32 = min 32 v := by
  have hne : 2 ^ v * o ≠ 0 := by
    obtain ⟨w, hw⟩ := ho
    have := Nat.one_le_two_pow (n := v)
    have : 2 ^ v * o ≥ 1 * 1 :=
      Nat.mul_le_mul (by omega) (by omega)
    omega
  unfold czb
  rw [if_neg hne, xor_land_trailing v o ho, bitLen_two_pow_sub_one]

theorem maskOfPfx_eq (p : Nat) (hp : p ≤ 32) :
    maskOfPfx p = 4294967296 - 2 ^ (32 - p) := by
  have h : ∀ q : Nat, q < 33 → maskOfPfx q = 4294967296 - 2 ^ (32 - q) := by decide
  exact h p (by omega)

theorem plenFromIpInt_maskOfPfx (p : Nat) (hp : p ≤ 32) :
    plenFromIpInt (maskOfPfx p) = some p := by
  have h : ∀ q : Nat, q < 33 → plenFromIpInt (maskOfPfx q) = some q := by decide
  exact h p (by omega)

theorem plenFromIpInt_some_eq (m p : Nat) (hm : m < 4294967296)
    (h : plenFromIpInt m = some p) : p ≤ 32 ∧ m = maskOfPfx p := by
  by_cases h0 : m = 0
  · subst h0
    have : plenFromIpInt 0 = some 0 := by decide
    rw [this] at h
    have hp : p = 0 := by
      injection h with h
      omega
    subst hp
    exact ⟨by omega, by decide⟩
  · obtain ⟨v, o, ho, rfl⟩ := Nat.exists_eq_two_pow_mul_odd h0
    have hv32 : v < 32 := by
      obtain ⟨w, hw⟩ := ho
      have h1 : 2 ^ v ≤ 2 ^ v * o := Nat.le_mul_of_pos_right _ (by omega)
      have h2 : 2 ^ v < 2 ^ 32 := by
        calc 2 ^ v ≤ 2 ^ v * o := h1
          _ < 4294967296 := hm
      exact (Nat.pow_lt_pow_iff_right (by omega)).mp h2
    have hczb : czb (2 ^ v * o) 32 = v := by
      rw [czb_two_pow_mul_odd v o ho]
      omega
    unfold plenFromIpInt at h
    rw [hczb] at h
    rw [Nat.shiftRight_eq_div_pow,
      Nat.mul_div_cancel_left o (Nat.pos_pow_of_pos v (by omega))] at h
    by_cases hc : o = 2 ^ (32 - v) - 1
    · rw [if_pos hc] at h
      injection h with h
      subst h
      rw [hc]
      constructor
      · omega
      · rw [maskOfPfx_eq (32 - v) (by omega)]
        have hvv : 32 - (32 - v) = v := by omega
        rw [hvv]
        have h2 : 2 ^ v * 2 ^ (32 - v) = 4294967296 := by
          rw [← pow_add]
          have hvs : v + (32 - v) = 32 := by omega
          rw [hvs]
          norm_num
        have := Nat.one_le_two_pow (n := 32 - v)
        have := Nat.one_le_two_pow (n := v)
        rw [Nat.mul_sub_one
          ]
        omega
    · rw [if_neg hc] at h
      cases h

theorem two_pow_32 : (2 : Nat) ^ 32 = 4294967296 := by norm_num

theorem splitChar_ne_nil (c : Char) (l : List Char) : splitChar c l ≠ [] := by
  cases l with
  | nil => simp [splitChar]
  | cons x xs =>
    unfold splitChar
    cases h : splitChar c xs with
    | nil => simp
    | cons a t => by_cases hx : x = c <;> simp [hx]

theorem splitChar_not_mem (c : Char) (l : List Char) (h : c ∉ l) :
    splitChar c l = [l] := by
  induction l with
  | nil => rfl
  | cons x xs ih =>
    have hx : ¬ x = c := fun he => h (he ▸ List.mem_cons_self x xs)
    have hxs : c ∉ xs := fun hm => h (List.mem_cons_of_mem _ hm)
    unfold splitChar
    rw [ih hxs]
    simp [hx]

theorem splitChar_cons (c x : Char) (xs : List Char) :
    splitChar c (x :: xs) =
      match splitChar c xs with
      | [] => [[x]]
      | h :: t => if x = c then [] :: h :: t else (x :: h) :: t := rfl

theorem splitChar_append (c : Char) (xs ys : List Char) (h : c ∉ xs) :
    splitChar c (xs ++ c :: ys) = xs :: splitChar c ys := by
  induction xs with
  | nil =>
    rw [List.nil_append, splitChar_cons]
    cases hs : splitChar c ys with
    | nil => exact absurd hs (splitChar_ne_nil c ys)
    | cons a t => simp
  | cons x xt ih =>
    have hx : ¬ x = c := fun he => h (he ▸ List.mem_cons_self x xt)
    have hxt : c ∉ xt := fun hm => h (List.mem_cons_of_mem _ hm)
    rw [List.cons_append, splitChar_cons, ih hxt]
    simp [hx]

theorem parseOctet_digitsOf : ∀ a : Nat, a < 256 → parseOctet (digitsOf a) = some a := by
  decide

theorem dot_not_mem_digitsOf : ∀ a : Nat, a < 256 → '.' ∉ digitsOf a := by decide

theorem slash_not_mem_digitsOf : ∀ a : Nat, a < 256 → '/' ∉ digitsOf a := by decide

theorem append_cons_ne_empty (xs : List Char) (y : Char) (ys : List Char) :
    (xs ++ y :: ys).isEmpty = false := by
  cases xs <;> rfl

theorem ipIntFromChars_formatChars (m : Nat) (hm : m < 4294967296) :
    ipIntFromChars (formatChars m) = some m := by
  have h1 : m / 16777216 % 256 < 256 := Nat.mod_lt _ (by omega)
  have h2 : m / 65536 % 256 < 256 := Nat.mod_lt _ (by omega)
  have h3 : m / 256 % 256 < 256 := Nat.mod_lt _ (by omega)
  have h4 : m % 256 < 256 := Nat.mod_lt _ (by omega)
  unfold ipIntFromChars formatChars
  rw [append_cons_ne_empty]
  rw [splitChar_append '.' _ _ (dot_not_mem_digitsOf _ h1),
    splitChar_append '.' _ _ (dot_not_mem_digitsOf _ h2),
    splitChar_append '.' _ _ (dot_not_mem_digitsOf _ h3),
    splitChar_not_mem '.' _ (dot_not_mem_digitsOf _ h4)]
  simp only [Bool.false_eq_true, if_false]
  rw [parseOctet_digitsOf _ h1, parseOctet_digitsOf _ h2,
    parseOctet_digitsOf _ h3, parseOctet_digitsOf _ h4]
  show some (((m / 16777216 % 256 * 256 + m / 65536 % 256) * 256 + m / 256 % 256) * 256
    + m % 256) = some m
  rw [Option.some.injEq]
  omega

theorem slash_not_mem_formatChars (m : Nat) : '/' ∉ formatChars m := by
  have h1 : m / 16777216 % 256 < 256 := Nat.mod_lt _ (by omega)
  have h2 : m / 65536 % 256 < 256 := Nat.mod_lt _ (by omega)
  have h3 : m / 256 % 256 < 256 := Nat.mod_lt _ (by omega)
  have h4 : m % 256 < 256 := Nat.mod_lt _ (by omega)
  unfold formatChars
  intro h
  rcases List.mem_append.mp h with h | h
  · exact slash_not_mem_digitsOf _ h1 h
  rcases List.mem_cons.mp h with h | h
  · cases h
  rcases List.mem_append.mp h with h | h
  · exact slash_not_mem_digitsOf _ h2 h
  rcases List.mem_cons.mp h with h | h
  · cases h
  rcases List.mem_append.mp h with h | h
  · exact slash_not_mem_digitsOf _ h3 h
  rcases List.mem_cons.mp h with h | h
  · cases h
  · exact slash_not_mem_digitsOf _ h4 h

theorem dot_mem_formatChars (m : Nat) : '.' ∈ formatChars m := by
  unfold formatChars
  exact List.mem_append.mpr (Or.inr (List.mem_cons_self _ _))

theorem formatChars_not_all_digits (m : Nat) :
    (formatChars m).all Char.isDigit = false := by
  rw [Bool.eq_false_iff]
  intro hall
  have h := List.all_eq_true.mp hall '.' (dot_mem_formatChars m)
  cases h

theorem contains_slash_formatChars (m : Nat) :
    (formatChars m).contains '/' = false := by
  rw [Bool.eq_false_iff]
  intro hc
  exact slash_not_mem_formatChars m (List.elem_iff.mp hc)

theorem netmask_to_cidr_formatAddress (m : Nat) (hm : m < 4294967296) :
    netmask_to_cidr (formatAddress m) =
      match plenFromIpInt m with
      | some p => .ok p
      | none =>
        match plenFromIpInt (m ^^^ 4294967295) with
        | some p => .ok p
        | none => .raises .invalidMask := by
  unfold netmask_to_cidr
  have htl : (formatAddress m).toList = formatChars m := rfl
  rw [htl, contains_slash_formatChars]
  simp only [Bool.false_eq_true, if_false]
  unfold makeNetmask pfxFromPfxChars
  rw [formatChars_not_all_digits]
  have hne : (formatChars m).isEmpty = false := by
    unfold formatChars
    rw [append_cons_ne_empty]
  rw [hne]
  simp only [Bool.not_false, Bool.false_eq_true, if_false, if_true]
  unfold pfxFromIpChars
  rw [ipIntFromChars_formatChars m hm]
  dsimp only
  cases hA : plenFromIpInt m with
  | some p => rfl
  | none => cases hB : plenFromIpInt (m ^^^ 4294967295) <;> rfl

/-- Claim C2 — (amended) for every 32-bit mask value rendered in dotted
decimal: a contiguous ones-then-zeros pattern `maskOfPfx p` yields its
leading-ones count `p`; a complementary hostmask pattern (zeros then ones)
that is not itself a netmask pattern is also accepted, yielding the prefix
length of its complement (all-ones and all-zeros count as netmasks); only a
pattern that is neither fails with `InvalidMask`. -/
theorem c2_netmask_of_mask (m : Nat) (hm : m < 4294967296) :
    (∀ p, p ≤ 32 → m = maskOfPfx p → netmask_to_cidr (formatAddress m) = .ok p) ∧
    (∀ p, p ≤ 32 → m = 4294967295 ^^^ maskOfPfx p →
      (∀ q, q ≤ 32 → m ≠ maskOfPfx q) →
      netmask_to_cidr (formatAddress m) = .ok p) ∧
    ((∀ p, p ≤ 32 → m ≠ maskOfPfx p ∧ m ≠ 4294967295 ^^^ maskOfPfx p) →
      netmask_to_cidr (formatAddress m) = .raises .invalidMask) := by
  refine ⟨?_, ?_, ?_⟩
  · intro p hp he
    subst he
    have h : ∀ q : Nat, q < 33 →
        netmask_to_cidr (formatAddress (maskOfPfx q)) = .ok q := by decide
    exact h p (by omega)
  · intro p hp he hnm
    by_cases hp0 : p = 0
    · subst hp0
      have he0 : m = maskOfPfx 32 := by
        rw [he]
        decide
      exact absurd he0 (hnm 32 (by omega))
    by_cases hp32 : p = 32
    · subst hp32
      have he0 : m = maskOfPfx 0 := by
        rw [he]
        decide
      exact absurd he0 (hnm 0 (by omega))
    subst he
    have h : ∀ q : Nat, q < 33 → 1 ≤ q → q ≤ 31 →
        netmask_to_cidr (formatAddress (4294967295 ^^^ maskOfPfx q)) = .ok q := by decide
    exact h p (by omega) (by omega) (by omega)
  · intro hno
    rw [netmask_to_cidr_formatAddress m hm]
    have hA : plenFromIpInt m = none := by
      cases hp : plenFromIpInt m with
      | none => rfl
      | some p =>
        obtain ⟨hple, heq⟩ := plenFromIpInt_some_eq m p hm hp
        exact absurd heq (hno p hple).1
    have hmx : m ^^^ 4294967295 < 4294967296 := by
      rw [← two_pow_32]
      exact Nat.xor_lt_two_pow (by rw [two_pow_32]; exact hm) (by rw [two_pow_32]; norm_num)
    have hB : plenFromIpInt (m ^^^ 4294967295) = none := by
      cases hp : plenFromIpInt (m ^^^ 4294967295) with
      | none => rfl
      | some p =>
        obtain ⟨hple, heq⟩ := plenFromIpInt_some_eq _ p hmx hp
        have hm2 : m = 4294967295 ^^^ maskOfPfx p := by
          have h3 : m ^^^ 4294967295 ^^^ 4294967295 = m := by
            rw [Nat.xor_assoc, Nat.xor_self, Nat.xor_zero]
          rw [← h3, heq, Nat.xor_comm]
        exact absurd hm2 (hno p hple).2
    rw [hA, hB]

theorem c2_netmask_of_mask_witness :
    ((255 : Nat) < 4294967296 ∧ (24 : Nat) ≤ 32 ∧
      (255 : Nat) = 4294967295 ^^^ maskOfPfx 24 ∧
      netmask_to_cidr (formatAddress 255) = .ok 24) ∧
    ((4294967040 : Nat) < 4294967296 ∧ (4294967040 : Nat) = maskOfPfx 24 ∧
      netmask_to_cidr (formatAddress 4294967040) = .ok 24) ∧
    ((4278255360 : Nat) < 4294967296 ∧
      netmask_to_cidr (formatAddress 4278255360) = .raises .invalidMask) := by
  have hno : ∀ q : Nat, q < 33 →
      (4278255360 : Nat) ≠ maskOfPfx q ∧
        (4278255360 : Nat) ≠ 4294967295 ^^^ maskOfPfx q := by decide
  have hno255 : ∀ q : Nat, q < 33 → (255 : Nat) ≠ maskOfPfx q := by decide
  refine ⟨⟨by decide, by decide, by decide, ?_⟩, ⟨by decide, by decide, ?_⟩,
    ⟨by decide, ?_⟩⟩
  · exact (c2_netmask_of_mask 255 (by decide)).2.1 24 (by decide) (by decide)
      (fun q hq => hno255 q (by omega))
  · exact (c2_netmask_of_mask 4294967040 (by decide)).1 24 (by decide) (by decide)
  · exact (c2_netmask_of_mask 4278255360 (by decide)).2.2
      (fun p hp => hno p (by omega))

theorem parseOctet_le (l : List Char) (x : Nat) (h : parseOctet l = some x) :
    x ≤ 255 := by
  unfold parseOctet at h
  split_ifs at h with h1 h2 h3 h4 h5
  injection h with h
  omega

theorem ipIntFromChars_lt (l : List Char) (ip : Nat) (h : ipIntFromChars l = some ip) :
    ip < 4294967296 := by
  unfold ipIntFromChars at h
  split_ifs at h
  split at h
  next a b c d heq =>
    split at h
    next x y z w hx hy hz hw =>
      injection h with h
      have h1 := parseOctet_le a x hx
      have h2 := parseOctet_le b y hy
      have h3 := parseOctet_le c z hz
      have h4 := parseOctet_le d w hw
      omega
    next => cases h
  next => cases h

theorem plenFromIpInt_le (m p : Nat) (h : plenFromIpInt m = some p) : p ≤ 32 := by
  unfold plenFromIpInt at h
  split_ifs at h
  injection h with h
  omega

theorem pfxFromIpChars_le (l : List Char) (p : Nat) (h : pfxFromIpChars l = some p) :
    p ≤ 32 := by
  unfold pfxFromIpChars at h
  split at h
  next => cases h
  next n hn =>
    split at h
    next q hq =>
      injection h with h
      subst h
      exact plenFromIpInt_le _ _ hq
    next => exact plenFromIpInt_le _ _ h

theorem makeNetmask_le (l : List Char) (p : Nat) (h : makeNetmask l = some p) :
    p ≤ 32 := by
  unfold makeNetmask at h
  split at h
  next q hq =>
    injection h with h
    subst h
    unfold pfxFromPfxChars at hq
    split_ifs at hq
    injection hq with hq
    omega
  next => exact pfxFromIpChars_le _ _ h

theorem land_mask (ip p : Nat) (hip : ip < 4294967296) (hp : p ≤ 32) :
    ip &&& maskOfPfx p = 2 ^ (32 - p) * (ip / 2 ^ (32 - p)) := by
  have hmask : maskOfPfx p = 2 ^ (32 - p) * (2 ^ p - 1) := by
    rw [maskOfPfx_eq p hp]
    have hpow : 2 ^ (32 - p) * 2 ^ p = 4294967296 := by
      rw [← pow_add]
      have hs : 32 - p + p = 32 := by omega
      rw [hs, two_pow_32]
    have h1 := Nat.one_le_two_pow (n := 32 - p)
    have hp1 : 2 ^ p - 1 + 1 = 2 ^ p := by
      have := Nat.one_le_two_pow (n := p)
      omega
    have hexp : 2 ^ (32 - p) * (2 ^ p - 1) + 2 ^ (32 - p) = 4294967296 := by
      calc 2 ^ (32 - p) * (2 ^ p - 1) + 2 ^ (32 - p)
          = 2 ^ (32 - p) * (2 ^ p - 1 + 1) := by ring
        _ = 2 ^ (32 - p) * 2 ^ p := by rw [hp1]
        _ = 4294967296 := hpow
    omega
  have hdecomp : ip = 2 ^ (32 - p) * (ip / 2 ^ (32 - p)) + ip % 2 ^ (32 - p) :=
    (Nat.div_add_mod ip (2 ^ (32 - p))).symm
  have hlo : ip % 2 ^ (32 - p) < 2 ^ (32 - p) :=
    Nat.mod_lt _ (Nat.pos_pow_of_pos _ (by omega))
  conv_lhs => rw [hdecomp, hmask]
  rw [land_split_right (32 - p) _ _ _ hlo]
  congr 1
  have hhi : ip / 2 ^ (32 - p) < 2 ^ p := by
    rw [Nat.div_lt_iff_lt_mul (Nat.pos_pow_of_pos _ (by omega))]
    calc ip < 4294967296 := hip
      _ = 2 ^ p * 2 ^ (32 - p) := by
        rw [← pow_add]
        have hs : p + (32 - p) = 32 := by omega
        rw [hs, two_pow_32]
  rw [Nat.and_pow_two_sub_one_eq_mod, Nat.mod_eq_of_lt hhi]

theorem wf_of_masked (ip p : Nat) (hip : ip < 4294967296) (hp : p ≤ 32) :
    wfNet ⟨ip &&& maskOfPfx p, p⟩ := by
  have hland := land_mask ip p hip hp
  have hhi : ip / 2 ^ (32 - p) < 2 ^ p := by
    rw [Nat.div_lt_iff_lt_mul (Nat.pos_pow_of_pos _ (by omega))]
    calc ip < 4294967296 := hip
      _ = 2 ^ p * 2 ^ (32 - p) := by
        rw [← pow_add]
        have hs : p + (32 - p) = 32 := by omega
        rw [hs, two_pow_32]
  refine ⟨hp, ?_, ?_⟩
  · show blockSize p ∣ ip &&& maskOfPfx p
    rw [hland]
    unfold blockSize
    exact dvd_mul_right _ _
  · show (ip &&& maskOfPfx p) + blockSize p ≤ 4294967296
    rw [hland]
    unfold blockSize
    have hmul : 2 ^ (32 - p) * (ip / 2 ^ (32 - p)) + 2 ^ (32 - p)
        = 2 ^ (32 - p) * (ip / 2 ^ (32 - p) + 1) := by ring
    rw [hmul]
    calc 2 ^ (32 - p) * (ip / 2 ^ (32 - p) + 1)
        ≤ 2 ^ (32 - p) * 2 ^ p := Nat.mul_le_mul_left _ (by omega)
      _ = 4294967296 := by
        rw [← pow_add]
        have hs : 32 - p + p = 32 := by omega
        rw [hs, two_pow_32]

theorem parseNetwork_wf (s : String) (n : Net) (h : parseNetwork s = some n) :
    wfNet n := by
  unfold parseNetwork at h
  split at h
  next a heq =>
    cases hip : ipIntFromChars a with
    | none => rw [hip] at h; cases h
    | some ip =>
      rw [hip] at h
      injection h with h
      subst h
      exact wf_of_masked ip 32 (ipIntFromChars_lt a ip hip) (by omega)
  next a m heq =>
    split at h
    next ip p hip hp =>
      injection h with h
      subst h
      exact wf_of_masked ip p (ipIntFromChars_lt a ip hip) (makeNetmask_le m p hp)
    next => cases h
  next => cases h

theorem le_two_pow_clog2 (n : Nat) : n ≤ 2 ^ clog2 n := by
  unfold clog2
  have h := (bitLen_le_iff (n - 1) (bitLen (n - 1))).mp (Nat.le_refl _)
  omega

/-- The record loop on an arithmetic progression of subnets: when no subnet
hits the two overflow corners, it returns exactly the rendered records with
ordinals following the enumeration. -/
theorem renderSubnets_range (base q : Nat) :
    ∀ (cnt k : Nat),
      (∀ i, k ≤ i → i < k + cnt →
        base + i * blockSize q ≠ 4294967295 ∧
          broadcastOf (Net.mk (base + i * blockSize q) q) ≠ 0) →
      renderSubnets k ((List.range' k cnt).map fun i =>
          Net.mk (base + i * blockSize q) q) =
        .ok ((List.range' k cnt).map fun i =>
          { subnet_id := i + 1
            rede := base + i * blockSize q
            cidr := q
            mascara := maskOfPfx q
            broadcast := base + i * blockSize q + (blockSize q - 1)
            primeiro_host := base + i * blockSize q + 1
            ultimo_host := base + i * blockSize q + (blockSize q - 1) - 1
            hosts_disponiveis := (blockSize q : Int) - 2 }) := by
  intro cnt
  induction cnt with
  | zero => intro k hcond; rfl
  | succ c ih =>
    intro k hcond
    rw [List.range'_succ, List.map_cons, List.map_cons]
    obtain ⟨hb, hz⟩ := hcond k (Nat.le_refl k) (by omega)
    show (match renderSubnetInfo (k + 1) (Net.mk (base + k * blockSize q) q) with
      | none => PyResult.raises PyErr.subnetError
      | some info => (renderSubnets (k + 1) _).andThen fun l => .ok (info :: l)) = _
    rw [show renderSubnetInfo (k + 1) (Net.mk (base + k * blockSize q) q) =
        some { subnet_id := k + 1
               rede := base + k * blockSize q
               cidr := q
               mascara := maskOfPfx q
               broadcast := base + k * blockSize q + (blockSize q - 1)
               primeiro_host := base + k * blockSize q + 1
               ultimo_host := base + k * blockSize q + (blockSize q - 1) - 1
               hosts_disponiveis := (blockSize q : Int) - 2 } from by
      unfold renderSubnetInfo
      rw [if_neg hb, if_neg hz]
      rfl]
    rw [ih (k + 1) (fun i h1 h2 => hcond i (by omega) (by omega))]
    rfl

/-- Subnets of an arithmetic progression never hit the overflow corners,
under the stated hypotheses. -/
theorem c6_no_overflow (net : Net) (hw : wfNet net) (bits n : Nat)
    (hle : n ≤ 2 ^ bits) (hq : net.plen + bits ≤ 32)
    (hex : net.plen + bits = 32 → net.base ≠ 0 ∧ net.base + n ≠ 4294967296) :
    ∀ i, 0 ≤ i → i < 0 + n →
      net.base + i * blockSize (net.plen + bits) ≠ 4294967295 ∧
        broadcastOf (Net.mk (net.base + i * blockSize (net.plen + bits))
          (net.plen + bits)) ≠ 0 := by
  intro i _ hi
  obtain ⟨hp32, hdvd, hbound⟩ := hw
  have hsize : blockSize net.plen = 2 ^ bits * blockSize (net.plen + bits) := by
    unfold blockSize
    rw [← pow_add]
    congr 1
    omega
  have hone : 1 ≤ blockSize (net.plen + bits) := Nat.one_le_two_pow
  have hstep : (i + 1) * blockSize (net.plen + bits) ≤ 2 ^ bits * blockSize (net.plen + bits) :=
    Nat.mul_le_mul_right _ (by omega)
  by_cases h32 : net.plen + bits = 32
  · have hs1 : blockSize (net.plen + bits) = 1 := by
      unfold blockSize
      rw [h32]
      rfl
    obtain ⟨hb0, hbn⟩ := hex h32
    have hnetle : net.base + n ≤ 4294967296 := by
      rw [hsize, hs1] at hbound
      omega
    constructor
    · rw [hs1]
      omega
    · unfold broadcastOf
      rw [show (Net.mk (net.base + i * blockSize (net.plen + bits))
          (net.plen + bits)).plen = net.plen + bits from rfl]
      rw [hs1]
      simp only [Nat.mul_one]
      omega
  · have hs2 : 2 ≤ blockSize (net.plen + bits) := by
      unfold blockSize
      calc (2 : Nat) = 2 ^ 1 := rfl
        _ ≤ 2 ^ (32 - (net.plen + bits)) := Nat.pow_le_pow_right (by omega) (by omega)
    constructor
    · intro hcontra
      have hdvd1 : blockSize (net.plen + bits) ∣ blockSize net.plen :=
        ⟨2 ^ bits, by rw [hsize]; ring⟩
      have hdvd2 : blockSize (net.plen + bits) ∣ net.base := hdvd1.trans hdvd
      have h2s : (2 : Nat) ∣ blockSize (net.plen + bits) := by
        unfold blockSize
        exact dvd_pow_self 2 (by omega)
      have h2 : (2 : Nat) ∣ net.base + i * blockSize (net.plen + bits) :=
        Nat.dvd_add (h2s.trans hdvd2) (h2s.mul_left i)
      rw [hcontra] at h2
      omega
    · unfold broadcastOf
      rw [show (Net.mk (net.base + i * blockSize (net.plen + bits))
          (net.plen + bits)).plen = net.plen + bits from rfl]
      omega

/-- Claim C6 — (amended) for every valid network and `desiredCount ≥ 1`,
`subnet_network` computes `bitsNeeded = ceil(log2 desiredCount)` and
`newPrefix = prefixLength + bitsNeeded`; it fails with `InsufficientSpace`
when `newPrefix > 32`, and otherwise returns exactly the first
`desiredCount` subnets of prefix `newPrefix` in ascending address order from
the base address, tagged with 1-based ordinals — except when one of those
subnets is 0.0.0.0/32 or 255.255.255.255/32, whose host-range arithmetic
overflows and turns the call into the `Erro ao dividir rede` failure. -/
theorem c6_split_spec (s : String) (net : Net) (num : Int)
    (hs : parseNetwork s = some net) (hn : 1 ≤ num) :
    (32 < net.plen + clog2 num.toNat →
      subnet_network s num = .raises .insufficientSpace) ∧
    (net.plen + clog2 num.toNat ≤ 32 →
      (net.plen + clog2 num.toNat = 32 →
        net.base ≠ 0 ∧ net.base + num.toNat ≠ 4294967296) →
      subnet_network s num = .ok ((List.range num.toNat).map fun i =>
        { subnet_id := i + 1
          rede := net.base + i * blockSize (net.plen + clog2 num.toNat)
          cidr := net.plen + clog2 num.toNat
          mascara := maskOfPfx (net.plen + clog2 num.toNat)
          broadcast := net.base + i * blockSize (net.plen + clog2 num.toNat) +
            (blockSize (net.plen + clog2 num.toNat) - 1)
          primeiro_host := net.base + i * blockSize (net.plen + clog2 num.toNat) + 1
          ultimo_host := net.base + i * blockSize (net.plen + clog2 num.toNat) +
            (blockSize (net.plen + clog2 num.toNat) - 1) - 1
          hosts_disponiveis := (blockSize (net.plen + clog2 num.toNat) : Int) - 2 })) := by
  have hnot : ¬ num ≤ 0 := by omega
  constructor
  · intro hgt
    unfold subnet_network
    rw [hs]
    dsimp only
    rw [if_neg hnot, if_pos hgt]
  · intro hle hex
    unfold subnet_network
    rw [hs]
    dsimp only
    rw [if_neg hnot, if_neg (by omega : ¬ 32 < net.plen + clog2 num.toNat)]
    have htake : ((List.range (2 ^ clog2 num.toNat)).map fun i =>
        Net.mk (net.base + i * blockSize (net.plen + clog2 num.toNat))
          (net.plen + clog2 num.toNat)).take num.toNat
        = (List.range' 0 num.toNat).map fun i =>
          Net.mk (net.base + i * blockSize (net.plen + clog2 num.toNat))
            (net.plen + clog2 num.toNat) := by
      rw [← List.map_take, List.take_range]
      have hmin : num.toNat ⊓ 2 ^ clog2 num.toNat = num.toNat := by
        have := le_two_pow_clog2 num.toNat
        omega
      rw [hmin, List.range_eq_range']
    rw [htake]
    rw [renderSubnets_range net.base (net.plen + clog2 num.toNat) num.toNat 0
      (c6_no_overflow net (parseNetwork_wf s net hs) (clog2 num.toNat) num.toNat
        (le_two_pow_clog2 _) hle hex)]
    rw [List.range_eq_range']

theorem c6_split_spec_witness :
    parseNetwork "192.168.1.0/24" = some (Net.mk 3232235776 24) ∧
    (1 : Int) ≤ 4 ∧
    subnet_network "192.168.1.0/24" 4 = .ok ((List.range (4 : Int).toNat).map fun i =>
      { subnet_id := i + 1
        rede := (Net.mk 3232235776 24).base +
          i * blockSize ((Net.mk 3232235776 24).plen + clog2 (4 : Int).toNat)
        cidr := (Net.mk 3232235776 24).plen + clog2 (4 : Int).toNat
        mascara := maskOfPfx ((Net.mk 3232235776 24).plen + clog2 (4 : Int).toNat)
        broadcast := (Net.mk 3232235776 24).base +
          i * blockSize ((Net.mk 3232235776 24).plen + clog2 (4 : Int).toNat) +
          (blockSize ((Net.mk 3232235776 24).plen + clog2 (4 : Int).toNat) - 1)
        primeiro_host := (Net.mk 3232235776 24).base +
          i * blockSize ((Net.mk 3232235776 24).plen + clog2 (4 : Int).toNat) + 1
        ultimo_host := (Net.mk 3232235776 24).base +
          i * blockSize ((Net.mk 3232235776 24).plen + clog2 (4 : Int).toNat) +
          (blockSize ((Net.mk 3232235776 24).plen + clog2 (4 : Int).toNat) - 1) - 1
        hosts_disponiveis :=
          (blockSize ((Net.mk 3232235776 24).plen + clog2 (4 : Int).toNat) : Int) - 2 }) :=
  ⟨by decide, by decide,
    (c6_split_spec "192.168.1.0/24" (Net.mk 3232235776 24) 4 (by decide) (by decide)).2
      (by decide) (by decide)⟩

/-! Block arithmetic for the aggregator.  A well-formed network is an
aligned power-of-two interval; two such blocks are always nested or
disjoint. -/

theorem base_lt (n : Net) (hw : wfNet n) : n.base < 4294967296 := by
  obtain ⟨h1, h2, h3⟩ := hw
  have := Nat.one_le_two_pow (n := 32 - n.plen)
  unfold blockSize at h3
  omega

theorem blockSize_pos (p : Nat) : 1 ≤ blockSize p := Nat.one_le_two_pow

theorem memNet_base (n : Net) : memNet n.base n := by
  have := blockSize_pos n.plen
  unfold memNet broadcastOf
  omega

theorem memNet_broadcast (n : Net) : memNet (broadcastOf n) n := by
  have := blockSize_pos n.plen
  unfold memNet broadcastOf
  omega

theorem broadcast_lt (n : Net) (hw : wfNet n) : broadcastOf n < 4294967296 := by
  obtain ⟨h1, h2, h3⟩ := hw
  have := blockSize_pos n.plen
  unfold broadcastOf
  omega

theorem blockSize_le_of_le {p q : Nat} (hpq : p ≤ q) : blockSize q ≤ blockSize p := by
  unfold blockSize
  exact Nat.pow_le_pow_right (by omega) (by omega)

theorem blockSize_dvd_of_le {p q : Nat} (hpq : p ≤ q) : blockSize q ∣ blockSize p := by
  unfold blockSize
  exact pow_dvd_pow 2 (by omega)

theorem maskOfPfx_mono : ∀ p q : Nat, p ≤ 32 → q ≤ 32 →
    (maskOfPfx p ≤ maskOfPfx q ↔ p ≤ q) := by
  have h : ∀ p : Nat, p < 33 → ∀ q : Nat, q < 33 →
      (maskOfPfx p ≤ maskOfPfx q ↔ p ≤ q) := by decide
  exact fun p q hp hq => h p (by omega) q (by omega)

/-- Two aligned blocks that share a point, with the first no larger than the
second, have the first contained in the second. -/
theorem block_subset_of_inter (m n : Net) (hm : wfNet m) (hn : wfNet n)
    (hple : n.plen ≤ m.plen) (a : Nat) (ham : memNet a m) (han : memNet a n) :
    n.base ≤ m.base ∧ broadcastOf m ≤ broadcastOf n := by
  obtain ⟨hm1, hm2, hm3⟩ := hm
  obtain ⟨hn1, hn2, hn3⟩ := hn
  obtain ⟨k1, hk1⟩ := hm2
  obtain ⟨k2v, hk2⟩ := hn2
  obtain ⟨t, ht⟩ := blockSize_dvd_of_le hple
  have hs1 : 1 ≤ blockSize m.plen := blockSize_pos _
  have hs2 : 1 ≤ blockSize n.plen := blockSize_pos _
  unfold memNet broadcastOf at ham han
  obtain ⟨ham1, ham2⟩ := ham
  obtain ⟨han1, han2⟩ := han
  have han2b : a < n.base + blockSize n.plen := by omega
  have ham2b : a < m.base + blockSize m.plen := by omega
  have hj1 : k1 ≤ a / blockSize m.plen := by
    rw [Nat.le_div_iff_mul_le (by omega)]
    calc k1 * blockSize m.plen = blockSize m.plen * k1 := Nat.mul_comm _ _
      _ = m.base := hk1.symm
      _ ≤ a := ham1
  have hj2 : a / blockSize m.plen < k1 + 1 := by
    rw [Nat.div_lt_iff_lt_mul (by omega)]
    calc a < m.base + blockSize m.plen := ham2b
      _ = blockSize m.plen * (k1 + 1) := by rw [hk1]; ring
      _ = (k1 + 1) * blockSize m.plen := Nat.mul_comm _ _
  have hA1 : t * k2v ≤ a / blockSize m.plen := by
    rw [Nat.le_div_iff_mul_le (by omega)]
    calc t * k2v * blockSize m.plen = blockSize m.plen * t * k2v := by ring
      _ = blockSize n.plen * k2v := by rw [ht]
      _ = n.base := hk2.symm
      _ ≤ a := han1
  have hA2 : a / blockSize m.plen < t * k2v + t := by
    rw [Nat.div_lt_iff_lt_mul (by omega)]
    calc a < n.base + blockSize n.plen := han2b
      _ = blockSize n.plen * (k2v + 1) := by rw [hk2]; ring
      _ = blockSize m.plen * t * (k2v + 1) := by rw [ht]
      _ = (t * k2v + t) * blockSize m.plen := by ring
  have hk1A : t * k2v ≤ k1 := by omega
  have hk1B : k1 + 1 ≤ t * k2v + t := by omega
  constructor
  · calc n.base = blockSize m.plen * (t * k2v) := by rw [hk2, ht]; ring
      _ ≤ blockSize m.plen * k1 := Nat.mul_le_mul_left _ hk1A
      _ = m.base := hk1.symm
  · have hfin : m.base + blockSize m.plen ≤ n.base + blockSize n.plen := by
      calc m.base + blockSize m.plen = blockSize m.plen * (k1 + 1) := by rw [hk1]; ring
        _ ≤ blockSize m.plen * (t * k2v + t) := Nat.mul_le_mul_left _ hk1B
        _ = n.base + blockSize n.plen := by rw [hk2, ht]; ring
    unfold broadcastOf
    omega

/-- Mem-level form of nesting. -/
theorem memNet_mono {m n : Net} (h1 : n.base ≤ m.base)
    (h2 : broadcastOf m ≤ broadcastOf n) : ∀ x, memNet x m → memNet x n := by
  intro x hx
  unfold memNet at hx ⊢
  omega

theorem block_nested_or_disj (m n : Net) (hm : wfNet m) (hn : wfNet n) :
    (∀ x, memNet x m → memNet x n) ∨ (∀ x, memNet x n → memNet x m) ∨ disjNets m n := by
  by_cases hint : ∃ a, memNet a m ∧ memNet a n
  · obtain ⟨a, ham, han⟩ := hint
    rcases Nat.le_total n.plen m.plen with hple | hple
    · left
      obtain ⟨hb1, hb2⟩ := block_subset_of_inter m n hm hn hple a ham han
      exact memNet_mono hb1 hb2
    · right; left
      obtain ⟨hb1, hb2⟩ := block_subset_of_inter n m hn hm hple a han ham
      exact memNet_mono hb1 hb2
  · right; right
    intro a ha
    exact hint ⟨a, ha⟩

theorem blockSize_pred (p : Nat) (h1 : 1 ≤ p) (hp : p ≤ 32) :
    blockSize (p - 1) = 2 * blockSize p := by
  unfold blockSize
  rw [← pow_succ']
  congr 1
  omega

theorem wf_plen_zero (v : Net) (hw : wfNet v) (h0 : v.plen = 0) : v = ⟨0, 0⟩ := by
  obtain ⟨h1, h2, h3⟩ := hw
  rw [h0] at h3
  have hbs : blockSize 0 = 4294967296 := rfl
  rw [hbs] at h3
  have hb : v.base = 0 := by omega
  cases v with
  | mk b p =>
    have hp2 : p = 0 := h0
    have hb2 : b = 0 := hb
    rw [hp2, hb2]

theorem supernetOfNet_eq (v : Net) (hw : wfNet v) (h1 : 1 ≤ v.plen) :
    supernetOfNet v =
      ⟨blockSize (v.plen - 1) * (v.base / blockSize (v.plen - 1)), v.plen - 1⟩ := by
  have hp32 := hw.1
  have hbase := base_lt v hw
  unfold supernetOfNet
  rw [if_neg (by omega : ¬ v.plen = 0)]
  have hshift : maskOfPfx v.plen <<< 1 = 4294967296 * 1 + maskOfPfx (v.plen - 1) := by
    rw [Nat.shiftLeft_eq, pow_one]
    rw [maskOfPfx_eq v.plen hp32, maskOfPfx_eq (v.plen - 1) (by omega)]
    have e1 : (2 : Nat) ^ (32 - (v.plen - 1)) = 2 * 2 ^ (32 - v.plen) := by
      rw [← pow_succ']
      congr 1
      omega
    have e2 := Nat.one_le_two_pow (n := 32 - v.plen)
    have e3 : (2 : Nat) ^ (32 - v.plen) ≤ 2147483648 := by
      calc (2 : Nat) ^ (32 - v.plen) ≤ 2 ^ 31 := Nat.pow_le_pow_right (by omega) (by omega)
        _ = 2147483648 := by norm_num
    rw [e1]
    generalize hX : (2 : Nat) ^ (32 - v.plen) = X at e2 e3 ⊢
    omega
  rw [hshift]
  have hmlt : maskOfPfx (v.plen - 1) < 4294967296 := by
    rw [maskOfPfx_eq (v.plen - 1) (by omega)]
    have := Nat.one_le_two_pow (n := 32 - (v.plen - 1))
    omega
  have hsplit : v.base &&& (4294967296 * 1 + maskOfPfx (v.plen - 1))
      = v.base &&& maskOfPfx (v.plen - 1) := by
    rw [show v.base &&& (4294967296 * 1 + maskOfPfx (v.plen - 1))
        = (4294967296 * 1 + maskOfPfx (v.plen - 1)) &&& v.base from Nat.land_comm _ _]
    rw [show (4294967296 * 1 + maskOfPfx (v.plen - 1)) &&& v.base
        = (4294967296 * 1 + maskOfPfx (v.plen - 1)) &&& (4294967296 * 0 + v.base) by
      rw [Nat.mul_zero, Nat.zero_add]]
    rw [show (4294967296 : Nat) = 2 ^ 32 from two_pow_32.symm]
    rw [land_split 32 1 (maskOfPfx (v.plen - 1)) 0 v.base
      (by rw [two_pow_32]; exact hmlt) (by rw [two_pow_32]; exact hbase)]
    have h10 : (1 : Nat) &&& 0 = 0 := rfl
    rw [h10, Nat.mul_zero, Nat.zero_add, Nat.land_comm]
  rw [hsplit, land_mask v.base (v.plen - 1) hbase (by omega)]
  rfl

theorem supernet_parent (v : Net) (hw : wfNet v) (h1 : 1 ≤ v.plen) :
    wfNet (supernetOfNet v) ∧ (supernetOfNet v).plen = v.plen - 1 ∧
    ((supernetOfNet v).base = v.base ∨
      (supernetOfNet v).base + blockSize v.plen = v.base) ∧
    (∀ x, memNet x v → memNet x (supernetOfNet v)) := by
  have hp32 := hw.1
  obtain ⟨hw1, hw2, hw3⟩ := hw
  have heq := supernetOfNet_eq v ⟨hw1, hw2, hw3⟩ h1
  have hbs2 : blockSize (v.plen - 1) = 2 * blockSize v.plen := blockSize_pred v.plen h1 hp32
  obtain ⟨k, hk⟩ := hw2
  have hs1 : 1 ≤ blockSize v.plen := blockSize_pos _
  have hmod : v.base % blockSize (v.plen - 1) = blockSize v.plen * (k % 2) := by
    rw [hk, hbs2, Nat.mul_comm 2 (blockSize v.plen), Nat.mul_mod_mul_left]
  have hdm := Nat.div_add_mod v.base (blockSize (v.plen - 1))
  have hbase : (supernetOfNet v).base = v.base - blockSize v.plen * (k % 2) := by
    rw [heq]
    show blockSize (v.plen - 1) * (v.base / blockSize (v.plen - 1))
      = v.base - blockSize v.plen * (k % 2)
    omega
  have hcase : k % 2 = 0 ∨ k % 2 = 1 := by omega
  have hplen : (supernetOfNet v).plen = v.plen - 1 := by rw [heq]
  have hbasealt : (supernetOfNet v).base = v.base ∨
      (supernetOfNet v).base + blockSize v.plen = v.base := by
    rcases hcase with hc | hc
    · left
      rw [hbase, hc, Nat.mul_zero, Nat.sub_zero]
    · right
      rw [hbase, hc, Nat.mul_one]
      have : blockSize v.plen ≤ v.base := by
        rw [hk]
        calc blockSize v.plen = blockSize v.plen * 1 := (Nat.mul_one _).symm
          _ ≤ blockSize v.plen * k := Nat.mul_le_mul_left _ (by omega)
      omega
  have hwp : wfNet (supernetOfNet v) := by
    have hdvd32 : blockSize (v.plen - 1) ∣ 4294967296 := by
      unfold blockSize
      rw [show (4294967296 : Nat) = 2 ^ 32 from two_pow_32.symm]
      exact pow_dvd_pow 2 (by omega)
    obtain ⟨d, hd⟩ := hdvd32
    have hqd : v.base / blockSize (v.plen - 1) < d := by
      have hble : blockSize (v.plen - 1) * (v.base / blockSize (v.plen - 1)) ≤ v.base := by
        rw [Nat.mul_comm]
        exact Nat.div_mul_le_self _ _
      have hlt : blockSize (v.plen - 1) * (v.base / blockSize (v.plen - 1)) < 4294967296 := by
        have := base_lt v ⟨hw1, ⟨k, hk⟩, hw3⟩
        omega
      rw [hd] at hlt
      exact Nat.lt_of_mul_lt_mul_left hlt
    have hfin : blockSize (v.plen - 1) * (v.base / blockSize (v.plen - 1) + 1)
        ≤ 4294967296 := by
      rw [hd]
      exact Nat.mul_le_mul_left _ (by omega)
    have hexp : blockSize (v.plen - 1) * (v.base / blockSize (v.plen - 1))
        + blockSize (v.plen - 1)
        = blockSize (v.plen - 1) * (v.base / blockSize (v.plen - 1) + 1) := by ring
    refine ⟨by rw [hplen]; omega, ?_, ?_⟩
    · rw [heq]
      exact dvd_mul_right _ _
    · rw [heq]
      show blockSize (v.plen - 1) * (v.base / blockSize (v.plen - 1))
        + blockSize (v.plen - 1) ≤ 4294967296
      omega
  refine ⟨hwp, hplen, hbasealt, ?_⟩
  intro x hx
  unfold memNet broadcastOf at hx ⊢
  rw [hplen, hbs2]
  rcases hbasealt with hb | hb <;> omega

theorem merge_union (v1 v2 : Net) (hw1 : wfNet v1) (hw2 : wfNet v2) (hne : v1 ≠ v2)
    (hsup : supernetOfNet v1 = supernetOfNet v2) :
    wfNet (supernetOfNet v1) ∧
    (∀ a, memNet a (supernetOfNet v1) ↔ (memNet a v1 ∨ memNet a v2)) := by
  by_cases h10 : v1.plen = 0
  · have hv1 : v1 = ⟨0, 0⟩ := wf_plen_zero v1 hw1 h10
    have hsv1 : supernetOfNet v1 = v1 := by rw [hv1]; rfl
    by_cases h20 : v2.plen = 0
    · exact absurd (hv1.trans (wf_plen_zero v2 hw2 h20).symm) hne
    · obtain ⟨_, _, _, hcont2⟩ := supernet_parent v2 hw2 (by omega)
      rw [hsv1]
      refine ⟨hw1, fun a => ⟨fun h => Or.inl h, fun h => ?_⟩⟩
      rcases h with h | h
      · exact h
      · have := hcont2 a h
        rw [← hsup, hsv1] at this
        exact this
  · by_cases h20 : v2.plen = 0
    · have hv2 : v2 = ⟨0, 0⟩ := wf_plen_zero v2 hw2 h20
      have hsv2 : supernetOfNet v2 = v2 := by rw [hv2]; rfl
      obtain ⟨_, _, _, hcont1⟩ := supernet_parent v1 hw1 (by omega)
      rw [hsup, hsv2]
      refine ⟨hw2, fun a => ⟨fun h => Or.inr h, fun h => ?_⟩⟩
      rcases h with h | h
      · have := hcont1 a h
        rw [hsup, hsv2] at this
        exact this
      · exact h
    · obtain ⟨hw1p, hplen1, hbase1, hcont1⟩ := supernet_parent v1 hw1 (by omega)
      obtain ⟨hw2p, hplen2, hbase2, hcont2⟩ := supernet_parent v2 hw2 (by omega)
      have hpe : v1.plen = v2.plen := by
        have ha := hplen1
        rw [hsup, hplen2] at ha
        omega
      rw [← hsup] at hbase2
      have hbs : blockSize (supernetOfNet v1).plen = 2 * blockSize v1.plen := by
        rw [hplen1]
        exact blockSize_pred v1.plen (by omega) hw1.1
      have hsz : blockSize v2.plen = blockSize v1.plen := by rw [hpe]
      refine ⟨hw1p, fun a => ⟨fun h => ?_, fun h => ?_⟩⟩
      · -- a in parent: decide which half
        rcases hbase1 with hb1 | hb1 <;> rcases hbase2 with hb2 | hb2
        · exact absurd (show v1 = v2 by
            have hbase : v1.base = v2.base := by omega
            calc v1 = ⟨v1.base, v1.plen⟩ := rfl
              _ = ⟨v2.base, v2.plen⟩ := by rw [hbase, hpe]
              _ = v2 := rfl) hne
        · unfold memNet broadcastOf at h ⊢
          rw [hbs] at h
          by_cases hcut : a ≤ v1.base + (blockSize v1.plen - 1)
          · exact Or.inl ⟨by omega, hcut⟩
          · exact Or.inr ⟨by omega, by omega⟩
        · unfold memNet broadcastOf at h ⊢
          rw [hbs] at h
          by_cases hcut : a ≤ v2.base + (blockSize v2.plen - 1)
          · exact Or.inr ⟨by omega, hcut⟩
          · exact Or.inl ⟨by omega, by omega⟩
        · exact absurd (show v1 = v2 by
            have hbase : v1.base = v2.base := by omega
            calc v1 = ⟨v1.base, v1.plen⟩ := rfl
              _ = ⟨v2.base, v2.plen⟩ := by rw [hbase, hpe]
              _ = v2 := rfl) hne
      · rcases h with h | h
        · exact hcont1 a h
        · have := hcont2 a h
          rw [← hsup] at this
          exact this

theorem blockSize_inj {p q : Nat} (hp : p ≤ 32) (hq : q ≤ 32)
    (h : blockSize p = blockSize q) : p = q := by
  unfold blockSize at h
  have h2 := Nat.pow_right_injective (by omega : 2 ≤ 2) h
  omega

theorem net_eq_of_fields {v w : Net} (hb : v.base = w.base) (hp : v.plen = w.plen) :
    v = w := by
  calc v = ⟨v.base, v.plen⟩ := rfl
    _ = ⟨w.base, w.plen⟩ := by rw [hb, hp]
    _ = w := rfl

/-- A block contained in a block of equal or larger prefix length equals it. -/
theorem net_eq_of_sub (m n : Net) (hm : wfNet m) (hn : wfNet n)
    (h1 : n.base ≤ m.base) (h2 : broadcastOf m ≤ broadcastOf n)
    (hple : m.plen ≤ n.plen) : m = n := by
  have hbs : blockSize n.plen ≤ blockSize m.plen := blockSize_le_of_le hple
  have hs1 := blockSize_pos m.plen
  have hs2 := blockSize_pos n.plen
  unfold broadcastOf at h2
  have hb : m.base = n.base := by omega
  have hsz : blockSize m.plen = blockSize n.plen := by omega
  exact net_eq_of_fields hb (blockSize_inj hm.1 hn.1 hsz)

/-- Set-level containment of blocks yields interval containment. -/
theorem sub_of_mem_imp (m b : Net) (h : ∀ a, memNet a m → memNet a b) :
    b.base ≤ m.base ∧ broadcastOf m ≤ broadcastOf b := by
  have h1 := h m.base (memNet_base m)
  have h2 := h (broadcastOf m) (memNet_broadcast m)
  exact ⟨h1.1, h2.2⟩

theorem exists_max_plen (l : List Net) (hne : l ≠ []) :
    ∃ m ∈ l, ∀ n ∈ l, n.plen ≤ m.plen := by
  induction l with
  | nil => exact absurd rfl hne
  | cons h t ih =>
    by_cases ht : t = []
    · subst ht
      refine ⟨h, List.mem_cons_self h [], ?_⟩
      intro n hn
      rw [List.mem_singleton] at hn
      rw [hn]
    · obtain ⟨m, hm, hmax⟩ := ih ht
      by_cases hc : h.plen ≤ m.plen
      · refine ⟨m, List.mem_cons_of_mem h hm, ?_⟩
        intro n hn
        rcases List.mem_cons.mp hn with h1 | h1
        · rw [h1]; exact hc
        · exact hmax n h1
      · refine ⟨h, List.mem_cons_self h t, ?_⟩
        intro n hn
        rcases List.mem_cons.mp hn with h1 | h1
        · rw [h1]
        · exact le_trans (hmax n h1) (by omega)

/-- In sorted order, a later block with strictly larger broadcast is
disjoint from an earlier one. -/
theorem disj_of_netLe (l n : Net) (hwl : wfNet l) (hwn : wfNet n)
    (h1 : netLe l n) (h2 : broadcastOf l < broadcastOf n) : disjNets l n := by
  rcases block_nested_or_disj l n hwl hwn with hc | hc | hc
  · obtain ⟨hb1, hb2⟩ := sub_of_mem_imp l n hc
    rcases h1 with hlt | ⟨heq, hmask⟩
    · omega
    · have hple : l.plen ≤ n.plen := (maskOfPfx_mono l.plen n.plen hwl.1 hwn.1).mp hmask
      have hbs : blockSize n.plen ≤ blockSize l.plen := blockSize_le_of_le hple
      have hs1 := blockSize_pos l.plen
      have hs2 := blockSize_pos n.plen
      unfold broadcastOf at h2
      omega
  · obtain ⟨hb1, hb2⟩ := sub_of_mem_imp n l hc
    omega
  · exact hc

/-- Every block of positive prefix length has a sibling: same size, same
immediate supernet, disjoint, and the two halves tile the supernet. -/
theorem sibling_spec (m : Net) (hw : wfNet m) (h1 : 1 ≤ m.plen) :
    ∃ s : Net, wfNet s ∧ s.plen = m.plen ∧
      supernetOfNet s = supernetOfNet m ∧ s ≠ m ∧
      (∀ x, ¬ (memNet x s ∧ memNet x m)) ∧
      (∀ x, memNet x s → memNet x (supernetOfNet m)) ∧
      (∀ x, memNet x (supernetOfNet m) → memNet x m ∨ memNet x s) := by
  obtain ⟨hwp, hplenp, hbasep, hcontp⟩ := supernet_parent m hw h1
  have hp32 := hw.1
  have hB : blockSize ((supernetOfNet m).plen) = 2 * blockSize m.plen := by
    rw [hplenp]
    exact blockSize_pred m.plen h1 hp32
  have hs1 := blockSize_pos m.plen
  have heqm := supernetOfNet_eq m hw h1
  have hPb : (supernetOfNet m).base
      = blockSize (m.plen - 1) * (m.base / blockSize (m.plen - 1)) := by
    rw [heqm]
  have hB2 : blockSize (m.plen - 1) = 2 * blockSize m.plen :=
    blockSize_pred m.plen h1 hp32
  rcases hbasep with hb | hb
  · -- m is the lower half; the sibling sits above it
    refine ⟨⟨m.base + blockSize m.plen, m.plen⟩, ?_, rfl, ?_, ?_, ?_, ?_, ?_⟩
    · refine ⟨hp32, ?_, ?_⟩
      · exact Dvd.dvd.add hw.2.1 dvd_rfl
      · have h3 := hwp.2.2
        rw [hB, hb] at h3
        show m.base + blockSize m.plen + blockSize m.plen ≤ 4294967296
        omega
    · -- same supernet
      have hq : m.base = blockSize (m.plen - 1) * (m.base / blockSize (m.plen - 1)) := by
        rw [← hPb, hb]
      have hws : wfNet ⟨m.base + blockSize m.plen, m.plen⟩ := by
        refine ⟨hp32, Dvd.dvd.add hw.2.1 dvd_rfl, ?_⟩
        have h3 := hwp.2.2
        rw [hB, hb] at h3
        show m.base + blockSize m.plen + blockSize m.plen ≤ 4294967296
        omega
      have heqs := supernetOfNet_eq ⟨m.base + blockSize m.plen, m.plen⟩ hws h1
      rw [heqs, heqm]
      have hdiv : (m.base + blockSize m.plen) / blockSize (m.plen - 1)
          = m.base / blockSize (m.plen - 1) := by
        conv_lhs => rw [hq]
        rw [Nat.mul_add_div (by omega)]
        rw [show blockSize m.plen / blockSize (m.plen - 1) = 0 from
          Nat.div_eq_of_lt (by omega)]
        rw [Nat.add_zero]
      rw [show (⟨m.base + blockSize m.plen, m.plen⟩ : Net).base
          = m.base + blockSize m.plen from rfl]
      rw [hdiv]
    · -- distinct from m
      intro heq
      have hbb : m.base + blockSize m.plen = m.base := congrArg Net.base heq
      omega
    · -- disjoint halves
      intro x hx
      obtain ⟨hx1, hx2⟩ := hx
      unfold memNet broadcastOf at hx1 hx2
      dsimp only at hx1
      omega
    · -- sibling inside the parent
      intro x hx
      unfold memNet broadcastOf at hx ⊢
      dsimp only at hx
      rw [hB, hb]
      omega
    · -- the two halves tile the parent
      intro x hx
      unfold memNet broadcastOf at hx ⊢
      rw [hB, hb] at hx
      dsimp only
      by_cases hcut : x ≤ m.base + (blockSize m.plen - 1)
      · exact Or.inl ⟨by omega, hcut⟩
      · exact Or.inr ⟨by omega, by omega⟩
  · -- m is the upper half; the sibling sits below it
    refine ⟨⟨(supernetOfNet m).base, m.plen⟩, ?_, rfl, ?_, ?_, ?_, ?_, ?_⟩
    · refine ⟨hp32, ?_, ?_⟩
      · have hd : blockSize m.plen ∣ blockSize ((supernetOfNet m).plen) := by
          rw [hplenp]
          exact blockSize_dvd_of_le (by omega)
        exact dvd_trans hd hwp.2.1
      · have h3 := hwp.2.2
        rw [hB] at h3
        show (supernetOfNet m).base + blockSize m.plen ≤ 4294967296
        omega
    · -- same supernet
      have hws : wfNet ⟨(supernetOfNet m).base, m.plen⟩ := by
        refine ⟨hp32, ?_, ?_⟩
        · have hd : blockSize m.plen ∣ blockSize ((supernetOfNet m).plen) := by
            rw [hplenp]
            exact blockSize_dvd_of_le (by omega)
          exact dvd_trans hd hwp.2.1
        · have h3 := hwp.2.2
          rw [hB] at h3
          show (supernetOfNet m).base + blockSize m.plen ≤ 4294967296
          omega
      have heqs := supernetOfNet_eq ⟨(supernetOfNet m).base, m.plen⟩ hws h1
      have hdvd : blockSize (m.plen - 1) ∣ (supernetOfNet m).base := by
        have := hwp.2.1
        rw [hplenp] at this
        exact this
      obtain ⟨t, ht⟩ := hdvd
      have hbase2 : (supernetOfNet ⟨(supernetOfNet m).base, m.plen⟩).base
          = (supernetOfNet m).base := by
        rw [heqs]
        show blockSize (m.plen - 1) * ((supernetOfNet m).base / blockSize (m.plen - 1))
            = (supernetOfNet m).base
        rw [ht, Nat.mul_div_cancel_left t (by omega)]
      have hplen2 : (supernetOfNet ⟨(supernetOfNet m).base, m.plen⟩).plen
          = (supernetOfNet m).plen := by
        rw [heqs, hplenp]
      exact net_eq_of_fields hbase2 hplen2
    · -- distinct from m
      intro heq
      have hbb : ((⟨(supernetOfNet m).base, m.plen⟩ : Net)).base = m.base :=
        congrArg Net.base heq
      have hbb2 : (supernetOfNet m).base = m.base := hbb
      omega
    · -- disjoint halves
      intro x hx
      obtain ⟨hx1, hx2⟩ := hx
      unfold memNet broadcastOf at hx1 hx2
      dsimp only at hx1
      omega
    · -- sibling inside the parent
      intro x hx
      unfold memNet broadcastOf at hx ⊢
      dsimp only at hx
      rw [hB]
      omega
    · -- the two halves tile the parent
      intro x hx
      unfold memNet broadcastOf at hx ⊢
      rw [hB] at hx
      dsimp only
      by_cases hcut : x ≤ (supernetOfNet m).base + (blockSize m.plen - 1)
      · exact Or.inr ⟨by omega, hcut⟩
      · exact Or.inl ⟨by omega, by omega⟩

/-- A pairwise-disjoint, sibling-free family of at least two blocks cannot
tile a single block: the buddy of a smallest member would have to appear. -/
theorem no_single_cover (L : List Net) (hw : ∀ n ∈ L, wfNet n)
    (hdisj : L.Pairwise disjNets)
    (hsib : L.Pairwise (fun x y => supernetOfNet x ≠ supernetOfNet y))
    (hlen : 2 ≤ L.length) :
    ¬ ∃ b, wfNet b ∧ ∀ a, memNet a b ↔ memUnion a L := by
  rintro ⟨b, hwb, hcov⟩
  have hdisjSymm : Symmetric disjNets := by
    intro x y h a ha
    exact h a ⟨ha.2, ha.1⟩
  have hsibSymm : Symmetric (fun x y : Net => supernetOfNet x ≠ supernetOfNet y) :=
    fun x y h he => h he.symm
  have hdisj2 : ∀ x ∈ L, ∀ y ∈ L, x ≠ y → disjNets x y :=
    fun x hx y hy hxy => hdisj.forall hdisjSymm hx hy hxy
  have hsib2 : ∀ x ∈ L, ∀ y ∈ L, x ≠ y → supernetOfNet x ≠ supernetOfNet y :=
    fun x hx y hy hxy => hsib.forall hsibSymm hx hy hxy
  have hne : L ≠ [] := by
    intro h
    rw [h] at hlen
    simp at hlen
  obtain ⟨m, hmL, hmax⟩ := exists_max_plen L hne
  have hwm := hw m hmL
  obtain ⟨u, v, rest, hLuv⟩ : ∃ u v rest, L = u :: v :: rest := by
    cases L with
    | nil => simp at hlen
    | cons u t =>
      cases t with
      | nil => simp at hlen
      | cons v rest => exact ⟨u, v, rest, rfl⟩
  have huL : u ∈ L := by rw [hLuv]; exact List.mem_cons_self _ _
  have hvL : v ∈ L := by
    rw [hLuv]
    exact List.mem_cons_of_mem _ (List.mem_cons_self _ _)
  have huv : u ≠ v := by
    intro h
    have hd : disjNets u v := by
      rw [hLuv] at hdisj
      exact (List.pairwise_cons.mp hdisj).1 v (List.mem_cons_self _ _)
    rw [← h] at hd
    exact hd u.base ⟨memNet_base u, memNet_base u⟩
  obtain ⟨n0, hn0L, hn0m⟩ : ∃ n0 ∈ L, n0 ≠ m := by
    by_cases hum : u = m
    · exact ⟨v, hvL, fun h => huv (hum.trans h.symm)⟩
    · exact ⟨u, huL, hum⟩
  have hsubb : ∀ n ∈ L, ∀ x, memNet x n → memNet x b :=
    fun n hn x hx => (hcov x).mpr ⟨n, hn, hx⟩
  have hmb : m ≠ b := by
    intro h
    have h1 : memNet n0.base b := hsubb n0 hn0L n0.base (memNet_base n0)
    have h2 : memNet n0.base m := by rw [h]; exact h1
    exact hdisj2 m hmL n0 hn0L (fun hh => hn0m hh.symm) n0.base ⟨h2, memNet_base n0⟩
  obtain ⟨hb1, hb2⟩ := sub_of_mem_imp m b (hsubb m hmL)
  have hplt : b.plen < m.plen := by
    by_contra hcon
    push_neg at hcon
    exact hmb (net_eq_of_sub m b hwm hwb hb1 hb2 hcon)
  have h1m : 1 ≤ m.plen := by omega
  obtain ⟨hwp, hplenp, hbasep, hcontp⟩ := supernet_parent m hwm h1m
  obtain ⟨s, hws, hsplen, hssup, hsne, hsdisj, hspar, hscover⟩ := sibling_spec m hwm h1m
  have hparsub : ∀ x, memNet x (supernetOfNet m) → memNet x b := by
    rcases block_nested_or_disj (supernetOfNet m) b hwp hwb with hc | hc | hc
    · exact hc
    · obtain ⟨hc1, hc2⟩ := sub_of_mem_imp b (supernetOfNet m) hc
      have hbp : b = supernetOfNet m :=
        net_eq_of_sub b (supernetOfNet m) hwb hwp hc1 hc2 (by omega)
      intro x hx
      rw [hbp]
      exact hx
    · exfalso
      exact hc m.base ⟨hcontp m.base (memNet_base m), hsubb m hmL m.base (memNet_base m)⟩
  have hxb : memNet s.base b := hparsub s.base (hspar s.base (memNet_base s))
  obtain ⟨n, hnL, hxn⟩ := (hcov s.base).mp hxb
  have hnm : n ≠ m := by
    intro h
    have h2 : memNet s.base m := by rw [← h]; exact hxn
    exact hsdisj s.base ⟨memNet_base s, h2⟩
  have hwn := hw n hnL
  rcases block_nested_or_disj n s hwn hws with hc | hc | hc
  · obtain ⟨hc1, hc2⟩ := sub_of_mem_imp n s hc
    have hns : n = s := net_eq_of_sub n s hwn hws hc1 hc2 (by
      rw [hsplen]
      exact hmax n hnL)
    refine hsib2 n hnL m hmL hnm ?_
    rw [hns, hssup]
  · obtain ⟨hc1, hc2⟩ := sub_of_mem_imp s n hc
    by_cases heq : s.plen ≤ n.plen
    · have hns : n = s := (net_eq_of_sub s n hws hwn hc1 hc2 heq).symm
      refine hsib2 n hnL m hmL hnm ?_
      rw [hns, hssup]
    · push_neg at heq
      have hnpp : n.plen ≤ (supernetOfNet m).plen := by
        rw [hplenp]
        have := hsplen
        omega
      have hmem : memNet m.base n := by
        rcases block_nested_or_disj n (supernetOfNet m) hwn hwp with hd | hd | hd
        · obtain ⟨hd1, hd2⟩ := sub_of_mem_imp n _ hd
          have hnp : n = supernetOfNet m := net_eq_of_sub n _ hwn hwp hd1 hd2 hnpp
          rw [hnp]
          exact hcontp m.base (memNet_base m)
        · exact hd m.base (hcontp m.base (memNet_base m))
        · exfalso
          exact hd s.base ⟨hxn, hspar s.base (memNet_base s)⟩
      exact hdisj2 n hnL m hmL hnm m.base ⟨hmem, memNet_base m⟩
  · exact hc s.base ⟨hxn, memNet_base s⟩

theorem czb_le (n : Nat) : czb n 32 ≤ 32 := by
  unfold czb
  split
  · omega
  · exact Nat.min_le_left _ _

theorem czb_dvd (n : Nat) : 2 ^ czb n 32 ∣ n := by
  by_cases h0 : n = 0
  · subst h0
    exact dvd_zero _
  · obtain ⟨v, o, ho, rfl⟩ := Nat.exists_eq_two_pow_mul_odd h0
    rw [czb_two_pow_mul_odd v o ho]
    exact Dvd.dvd.mul_right (pow_dvd_pow 2 (Nat.min_le_right _ _)) o

theorem two_pow_bitLen_pred_le (n : Nat) (h : 1 ≤ n) : 2 ^ (bitLen n - 1) ≤ n := by
  have h1 : 1 ≤ bitLen n := by
    by_contra hc
    push_neg at hc
    have := (bitLen_le_iff n 0).mp (by omega)
    omega
  by_contra hc
  push_neg at hc
  have := (bitLen_le_iff n (bitLen n - 1)).mpr hc
  omega

theorem sumNbits_le (first last : Nat) : sumNbits first last ≤ 32 :=
  le_trans (Nat.min_le_left _ _) (czb_le first)

theorem summarize_block_le (first last : Nat) (h : first ≤ last) :
    first + 2 ^ sumNbits first last - 1 ≤ last := by
  have h1 : 2 ^ sumNbits first last ≤ last - first + 1 := by
    have hb : sumNbits first last ≤ bitLen (last - first + 1) - 1 := Nat.min_le_right _ _
    calc 2 ^ sumNbits first last ≤ 2 ^ (bitLen (last - first + 1) - 1) :=
        Nat.pow_le_pow_right (by omega) hb
      _ ≤ last - first + 1 := two_pow_bitLen_pred_le _ (by omega)
  have := Nat.one_le_two_pow (n := sumNbits first last)
  omega

theorem memUnion_append (a : Nat) (l1 l2 : List Net) :
    memUnion a (l1 ++ l2) ↔ memUnion a l1 ∨ memUnion a l2 := by
  unfold memUnion
  constructor
  · rintro ⟨n, hn, hm⟩
    rcases List.mem_append.mp hn with h | h
    · exact Or.inl ⟨n, h, hm⟩
    · exact Or.inr ⟨n, h, hm⟩
  · rintro (⟨n, hn, hm⟩ | ⟨n, hn, hm⟩)
    · exact ⟨n, List.mem_append.mpr (Or.inl hn), hm⟩
    · exact ⟨n, List.mem_append.mpr (Or.inr hn), hm⟩

/-- `summarize_address_range` tiles the interval `[first, last]` with
well-formed blocks. -/
theorem summarize_spec : ∀ fuel first last : Nat, last + 1 - first ≤ fuel →
    first ≤ last → last < 4294967296 →
    (∀ n ∈ summarize first last, wfNet n) ∧
    (∀ a, memUnion a (summarize first last) ↔ first ≤ a ∧ a ≤ last) := by
  intro fuel
  induction fuel with
  | zero =>
    intro first last hf h1 h2
    omega
  | succ f ih =>
    intro first last hf h1 h2
    have hnb := sumNbits_le first last
    have hble := summarize_block_le first last h1
    have hpos := Nat.one_le_two_pow (n := sumNbits first last)
    have hdvd : 2 ^ sumNbits first last ∣ first :=
      dvd_trans (pow_dvd_pow 2 (Nat.min_le_left _ _)) (czb_dvd first)
    have hwf : wfNet ⟨first, 32 - sumNbits first last⟩ := by
      refine ⟨?_, ?_, ?_⟩
      · show 32 - sumNbits first last ≤ 32
        omega
      · show blockSize (32 - sumNbits first last) ∣ first
        unfold blockSize
        rw [show 32 - (32 - sumNbits first last) = sumNbits first last by omega]
        exact hdvd
      · show first + blockSize (32 - sumNbits first last) ≤ 4294967296
        unfold blockSize
        rw [show 32 - (32 - sumNbits first last) = sumNbits first last by omega]
        omega
    have hbc : broadcastOf ⟨first, 32 - sumNbits first last⟩
        = first + 2 ^ sumNbits first last - 1 := by
      unfold broadcastOf blockSize
      dsimp only
      rw [show 32 - (32 - sumNbits first last) = sumNbits first last by omega]
      omega
    rw [summarize]
    rw [if_neg (by omega : ¬ last < first)]
    by_cases htop : first + 2 ^ sumNbits first last - 1 = 4294967295
    · rw [if_pos htop]
      constructor
      · intro n hn
        rw [List.mem_singleton] at hn
        rw [hn]
        exact hwf
      · intro a
        unfold memUnion
        constructor
        · rintro ⟨n, hn, hmem⟩
          rw [List.mem_singleton] at hn
          rw [hn] at hmem
          unfold memNet at hmem
          obtain ⟨hm1, hm2⟩ := hmem
          rw [hbc] at hm2
          have hm1b : first ≤ a := hm1
          omega
        · intro ha
          refine ⟨⟨first, 32 - sumNbits first last⟩, List.mem_singleton_self _, ?_⟩
          unfold memNet
          rw [hbc]
          exact ⟨ha.1, by omega⟩
    · rw [if_neg htop]
      by_cases hend : first + 2 ^ sumNbits first last = last + 1
      · have hrec : summarize (first + 2 ^ sumNbits first last) last = [] := by
          rw [summarize, if_pos (by omega)]
        rw [hrec]
        constructor
        · intro n hn
          rw [List.mem_singleton] at hn
          rw [hn]
          exact hwf
        · intro a
          unfold memUnion
          constructor
          · rintro ⟨n, hn, hmem⟩
            rw [List.mem_singleton] at hn
            rw [hn] at hmem
            unfold memNet at hmem
            obtain ⟨hm1, hm2⟩ := hmem
            rw [hbc] at hm2
            have hm1b : first ≤ a := hm1
            omega
          · intro ha
            refine ⟨⟨first, 32 - sumNbits first last⟩, List.mem_singleton_self _, ?_⟩
            unfold memNet
            rw [hbc]
            exact ⟨ha.1, by omega⟩
      · have hlt : first + 2 ^ sumNbits first last ≤ last := by omega
        obtain ⟨ihw, ihu⟩ := ih (first + 2 ^ sumNbits first last) last (by omega) hlt h2
        constructor
        · intro n hn
          rcases List.mem_cons.mp hn with h | h
          · rw [h]
            exact hwf
          · exact ihw n h
        · intro a
          constructor
          · rintro ⟨n, hn, hmem⟩
            rcases List.mem_cons.mp hn with h | h
            · rw [h] at hmem
              unfold memNet at hmem
              obtain ⟨hm1, hm2⟩ := hmem
              rw [hbc] at hm2
              have hm1b : first ≤ a := hm1
              omega
            · have := (ihu a).mp ⟨n, h, hmem⟩
              exact ⟨by omega, this.2⟩
          · intro ha
            by_cases hcut : a ≤ first + 2 ^ sumNbits first last - 1
            · refine ⟨⟨first, 32 - sumNbits first last⟩, List.mem_cons_self _ _, ?_⟩
              unfold memNet
              rw [hbc]
              exact ⟨ha.1, hcut⟩
            · obtain ⟨n, hn, hmem⟩ := (ihu a).mpr ⟨by omega, ha.2⟩
              exact ⟨n, List.mem_cons_of_mem _ hn, hmem⟩

/-- The run scan over strictly increasing addresses yields well-formed
blocks covering the current run plus the remaining addresses. -/
theorem runsLoop_spec : ∀ (l : List Nat) (first last : Nat),
    first ≤ last → last < 4294967296 → (∀ x ∈ l, last < x ∧ x < 4294967296) →
    l.Pairwise (· < ·) →
    (∀ n ∈ runsLoop first last l, wfNet n) ∧
    (∀ a, memUnion a (runsLoop first last l) ↔ (first ≤ a ∧ a ≤ last) ∨ a ∈ l) := by
  intro l
  induction l with
  | nil =>
    intro first last h1 h2 h3 h4
    rw [show runsLoop first last [] = summarize first last from rfl]
    obtain ⟨hw, hu⟩ := summarize_spec (last + 1 - first) first last (le_refl _) h1 h2
    refine ⟨hw, fun a => ?_⟩
    rw [hu a]
    simp
  | cons ip rest ih =>
    intro first last h1 h2 h3 h4
    have hip := h3 ip (List.mem_cons_self _ _)
    have hrest : ∀ x ∈ rest, ip < x ∧ x < 4294967296 := by
      intro x hx
      exact ⟨(List.pairwise_cons.mp h4).1 x hx, (h3 x (List.mem_cons_of_mem _ hx)).2⟩
    have h4b := (List.pairwise_cons.mp h4).2
    rw [show runsLoop first last (ip :: rest)
        = if ip = last + 1 then runsLoop first ip rest
          else summarize first last ++ runsLoop ip ip rest from rfl]
    by_cases hadj : ip = last + 1
    · rw [if_pos hadj]
      obtain ⟨hw, hu⟩ := ih first ip (by omega) hip.2 hrest h4b
      refine ⟨hw, fun a => ?_⟩
      rw [hu a]
      constructor
      · rintro (⟨g1, g2⟩ | g)
        · by_cases hg : a ≤ last
          · exact Or.inl ⟨g1, hg⟩
          · have ha : a = ip := by omega
            exact Or.inr (ha ▸ List.mem_cons_self _ _)
        · exact Or.inr (List.mem_cons_of_mem _ g)
      · rintro (⟨g1, g2⟩ | g)
        · exact Or.inl ⟨g1, by omega⟩
        · rcases List.mem_cons.mp g with h | h
          · exact Or.inl ⟨by omega, by omega⟩
          · exact Or.inr h
    · rw [if_neg hadj]
      obtain ⟨hw1, hu1⟩ := summarize_spec (last + 1 - first) first last (le_refl _) h1 h2
      obtain ⟨hw2, hu2⟩ := ih ip ip (le_refl _) hip.2 hrest h4b
      constructor
      · intro n hn
        rcases List.mem_append.mp hn with h | h
        · exact hw1 n h
        · exact hw2 n h
      · intro a
        rw [memUnion_append, hu1 a, hu2 a]
        constructor
        · rintro (g | (⟨g1, g2⟩ | g))
          · exact Or.inl g
          · have ha : a = ip := by omega
            exact Or.inr (ha ▸ List.mem_cons_self _ _)
          · exact Or.inr (List.mem_cons_of_mem _ g)
        · rintro (g | g)
          · exact Or.inl g
          · rcases List.mem_cons.mp g with h | h
            · exact Or.inr (Or.inl ⟨by omega, by omega⟩)
            · exact Or.inr (Or.inr h)

theorem collectAddrs_spec (l : List Nat) (hb : ∀ x ∈ l, x < 4294967296)
    (hs : l.Pairwise (· < ·)) :
    (∀ n ∈ collectAddrs l, wfNet n) ∧
    (∀ a, memUnion a (collectAddrs l) ↔ a ∈ l) := by
  cases l with
  | nil =>
    constructor
    · intro n hn
      simp [collectAddrs] at hn
    · intro a
      constructor
      · rintro ⟨n, hn, _⟩
        simp [collectAddrs] at hn
      · intro h
        simp at h
  | cons h t =>
    obtain ⟨hw, hu⟩ := runsLoop_spec t h h (le_refl _) (hb h (List.mem_cons_self _ _))
      (fun x hx => ⟨(List.pairwise_cons.mp hs).1 x hx, hb x (List.mem_cons_of_mem _ hx)⟩)
      (List.pairwise_cons.mp hs).2
    refine ⟨hw, fun a => ?_⟩
    rw [show collectAddrs (h :: t) = runsLoop h h t from rfl, hu a]
    constructor
    · rintro (⟨g1, g2⟩ | g)
      · have ha : a = h := by omega
        exact ha ▸ List.mem_cons_self _ _
      · exact List.mem_cons_of_mem _ g
    · intro g
      rcases List.mem_cons.mp g with g | g
      · exact Or.inl ⟨by omega, by omega⟩
      · exact Or.inr g

theorem sortedIps_mem (l : List Nat) (a : Nat) : a ∈ sortedIps l ↔ a ∈ l := by
  unfold sortedIps
  rw [List.Perm.mem_iff (List.perm_insertionSort _ _), List.mem_dedup]

theorem sortedIps_pairwise (l : List Nat) : (sortedIps l).Pairwise (· < ·) := by
  unfold sortedIps
  have hs : (List.insertionSort (fun a b => a ≤ b) l.dedup).Sorted (fun a b => a ≤ b) :=
    List.sorted_insertionSort _ _
  have hn : (List.insertionSort (fun a b => a ≤ b) l.dedup).Nodup :=
    (List.perm_insertionSort _ _).nodup_iff.mpr (List.nodup_dedup l)
  exact List.Sorted.lt_of_le hs hn

theorem memUnion_cons (a : Nat) (n : Net) (l : List Net) :
    memUnion a (n :: l) ↔ memNet a n ∨ memUnion a l := by
  unfold memUnion
  constructor
  · rintro ⟨m, hm, hx⟩
    rcases List.mem_cons.mp hm with h | h
    · exact Or.inl (h ▸ hx)
    · exact Or.inr ⟨m, h, hx⟩
  · rintro (h | ⟨m, hm, hx⟩)
    · exact ⟨n, List.mem_cons_self _ _, h⟩
    · exact ⟨m, List.mem_cons_of_mem _ hm, hx⟩

theorem memUnion_nil (a : Nat) : ¬ memUnion a [] := by
  rintro ⟨n, hn, _⟩
  simp at hn

theorem dictGet_none (k : Net) (d : List (Net × Net)) (h : dictGet k d = none) :
    ∀ e ∈ d, e.1 ≠ k := by
  intro e he
  unfold dictGet at h
  cases hf : List.find? (fun e => decide (e.1 = k)) d with
  | none =>
    have := List.find?_eq_none.mp hf e he
    simpa using this
  | some v =>
    rw [hf] at h
    simp at h

theorem dictGet_mem (k : Net) (d : List (Net × Net)) (v : Net)
    (h : dictGet k d = some v) : (k, v) ∈ d := by
  unfold dictGet at h
  cases hf : List.find? (fun e => decide (e.1 = k)) d with
  | none =>
    rw [hf] at h
    simp at h
  | some e =>
    rw [hf] at h
    have h2 : e.2 = v := Option.some.inj h
    have hmem := List.mem_of_find?_eq_some hf
    have hkey0 := List.find?_some hf
    have hkey : e.1 = k := of_decide_eq_true hkey0
    have he : e = (k, v) := by
      calc e = (e.1, e.2) := rfl
        _ = (k, v) := by rw [hkey, h2]
    rw [← he]
    exact hmem

theorem dictErase_sublist (k : Net) :
    ∀ d : List (Net × Net), (dictErase k d).Sublist d := by
  intro d
  induction d with
  | nil => exact List.nil_sublist _
  | cons e rest ih =>
    rw [show dictErase k (e :: rest)
        = if e.1 = k then rest else e :: dictErase k rest from rfl]
    split
    · exact List.Sublist.cons _ (List.Sublist.refl _)
    · exact List.Sublist.cons₂ e ih

theorem dictErase_union (k v : Net) : ∀ d : List (Net × Net),
    (d.map Prod.fst).Nodup → (k, v) ∈ d →
    ∀ a, (memUnion a (d.map Prod.snd) ↔
      memNet a v ∨ memUnion a ((dictErase k d).map Prod.snd)) := by
  intro d
  induction d with
  | nil =>
    intro _ h
    simp at h
  | cons e rest ih =>
    intro hnd hmem a
    rw [List.map_cons] at hnd
    obtain ⟨hh, ht⟩ := List.nodup_cons.mp hnd
    rw [show dictErase k (e :: rest)
        = if e.1 = k then rest else e :: dictErase k rest from rfl]
    by_cases hek : e.1 = k
    · rw [if_pos hek]
      have he : e = (k, v) := by
        rcases List.mem_cons.mp hmem with h | h
        · exact h.symm
        · exfalso
          apply hh
          rw [hek]
          exact List.mem_map.mpr ⟨(k, v), h, rfl⟩
      rw [List.map_cons, memUnion_cons, he]
    · rw [if_neg hek]
      have hmem2 : (k, v) ∈ rest := by
        rcases List.mem_cons.mp hmem with h | h
        · exfalso
          apply hek
          rw [← h]
        · exact h
      rw [List.map_cons, memUnion_cons, List.map_cons, memUnion_cons,
        ih ht hmem2 a]
      tauto

theorem dictErase_weight (k v : Net) : ∀ d : List (Net × Net),
    (d.map Prod.fst).Nodup → (k, v) ∈ d →
    (d.map fun e => 2 * e.2.plen + 2).sum
      = ((dictErase k d).map fun e => 2 * e.2.plen + 2).sum + (2 * v.plen + 2) := by
  intro d
  induction d with
  | nil =>
    intro _ h
    simp at h
  | cons e rest ih =>
    intro hnd hmem
    rw [List.map_cons] at hnd
    obtain ⟨hh, ht⟩ := List.nodup_cons.mp hnd
    rw [show dictErase k (e :: rest)
        = if e.1 = k then rest else e :: dictErase k rest from rfl]
    by_cases hek : e.1 = k
    · rw [if_pos hek]
      have he : e = (k, v) := by
        rcases List.mem_cons.mp hmem with h | h
        · exact h.symm
        · exfalso
          apply hh
          rw [hek]
          exact List.mem_map.mpr ⟨(k, v), h, rfl⟩
      rw [List.map_cons, List.sum_cons, he]
      have hred : ((k, v) : Net × Net).2.plen = v.plen := rfl
      omega
    · rw [if_neg hek]
      have hmem2 : (k, v) ∈ rest := by
        rcases List.mem_cons.mp hmem with h | h
        · exfalso
          apply hek
          rw [← h]
        · exact h
      rw [List.map_cons, List.sum_cons, List.map_cons, List.sum_cons,
        ih ht hmem2]
      omega

theorem supernetOfNet_plen_le (n : Net) : (supernetOfNet n).plen ≤ n.plen := by
  unfold supernetOfNet
  split
  · exact le_refl _
  · show n.plen - 1 ≤ n.plen
    omega

theorem supernetOfNet_zero (n : Net) (h : n.plen = 0) : supernetOfNet n = n := by
  unfold supernetOfNet
  rw [if_pos h]

theorem mergeLoopF_nil (f : Nat) (d : List (Net × Net)) :
    mergeLoopF (f + 1) [] d = d := rfl

theorem mergeLoopF_step (f : Nat) (net : Net) (rest : List Net)
    (d : List (Net × Net)) :
    mergeLoopF (f + 1) (net :: rest) d
      = (match dictGet (supernetOfNet net) d with
        | none => mergeLoopF f rest (d ++ [(supernetOfNet net, net)])
        | some existing =>
          if existing = net then mergeLoopF f rest d
          else mergeLoopF f (supernetOfNet net :: rest)
            (dictErase (supernetOfNet net) d)) := rfl

/-- The sibling-merge loop of `_collapse_addresses_internal`, run with enough
fuel, keeps the dictionary invariant and preserves the covered set. -/
theorem mergeLoopF_spec : ∀ (fuel : Nat) (tm : List Net) (d : List (Net × Net)),
    mergeWeight tm d < fuel →
    (∀ n ∈ tm, wfNet n) → dictInv d →
    dictInv (mergeLoopF fuel tm d) ∧
    (∀ a, memUnion a ((mergeLoopF fuel tm d).map Prod.snd) ↔
      memUnion a tm ∨ memUnion a (d.map Prod.snd)) := by
  intro fuel
  induction fuel with
  | zero =>
    intro tm d hf
    omega
  | succ f ih =>
    intro tm d hf htm hinv
    cases tm with
    | nil =>
      rw [mergeLoopF_nil]
      refine ⟨hinv, fun a => ?_⟩
      constructor
      · exact fun h => Or.inr h
      · rintro (h | h)
        · exact absurd h (memUnion_nil a)
        · exact h
    | cons net rest =>
      rw [mergeLoopF_step]
      have hwnet := htm net (List.mem_cons_self _ _)
      have htmr : ∀ n ∈ rest, wfNet n := fun n hn => htm n (List.mem_cons_of_mem _ hn)
      cases hg : dictGet (supernetOfNet net) d with
      | none =>
        have hfuel : mergeWeight rest (d ++ [(supernetOfNet net, net)]) < f := by
          unfold mergeWeight at hf ⊢
          rw [List.map_append, List.sum_append]
          simp only [List.map_cons, List.sum_cons, List.map_nil, List.sum_nil] at hf ⊢
          omega
        have hinv2 : dictInv (d ++ [(supernetOfNet net, net)]) := by
          constructor
          · intro e he
            rcases List.mem_append.mp he with h | h
            · exact hinv.1 e h
            · rw [List.mem_singleton] at h
              rw [h]
              exact ⟨rfl, hwnet⟩
          · rw [List.map_append]
            refine List.Nodup.append hinv.2 (List.nodup_singleton _) ?_
            intro x hx hx2
            simp only [List.map_cons, List.map_nil, List.mem_singleton] at hx2
            obtain ⟨e, he, hee⟩ := List.mem_map.mp hx
            exact dictGet_none _ _ hg e he (by rw [hee, hx2])
        obtain ⟨ih1, ih2⟩ := ih rest (d ++ [(supernetOfNet net, net)]) hfuel htmr hinv2
        refine ⟨ih1, fun a => ?_⟩
        rw [ih2 a, memUnion_cons, List.map_append, memUnion_append]
        have hsing : memUnion a ([(supernetOfNet net, net)].map Prod.snd)
            ↔ memNet a net := by
          rw [List.map_cons, List.map_nil, memUnion_cons]
          constructor
          · rintro (h | h)
            · exact h
            · exact absurd h (memUnion_nil a)
          · exact Or.inl
        rw [hsing]
        tauto
      | some existing =>
        have hpair := dictGet_mem _ _ _ hg
        have hex := hinv.1 _ hpair
        dsimp only
        by_cases hdup : existing = net
        · rw [if_pos hdup]
          have hfuel : mergeWeight rest d < f := by
            unfold mergeWeight at hf ⊢
            simp only [List.map_cons, List.sum_cons] at hf
            omega
          obtain ⟨ih1, ih2⟩ := ih rest d hfuel htmr hinv
          refine ⟨ih1, fun a => ?_⟩
          rw [ih2 a, memUnion_cons]
          have hmemd : memNet a net → memUnion a (d.map Prod.snd) := by
            intro h
            exact ⟨net, List.mem_map.mpr ⟨(supernetOfNet net, existing), hpair,
              by rw [hdup]⟩, h⟩
          tauto
        · rw [if_neg hdup]
          have hne : net ≠ existing := fun h => hdup h.symm
          have hsup : supernetOfNet net = supernetOfNet existing := hex.1.symm
          obtain ⟨hwsup, hmerge⟩ :=
            merge_union net existing hwnet hex.2 hne hsup
          have hepos : 1 ≤ existing.plen ∨ 1 ≤ net.plen := by
            by_contra hc
            push_neg at hc
            apply hne
            have h1 : supernetOfNet existing = existing :=
              supernetOfNet_zero existing (by omega)
            have h2 : supernetOfNet net = net := supernetOfNet_zero net (by omega)
            rw [← h2, hsup, h1]
          have hsupplen := supernetOfNet_plen_le net
          have hsuppeq : 1 ≤ net.plen → (supernetOfNet net).plen = net.plen - 1 := by
            intro h1
            exact (supernet_parent net hwnet h1).2.1
          have hwt := dictErase_weight (supernetOfNet net) existing d hinv.2 hpair
          have hfuel : mergeWeight (supernetOfNet net :: rest)
              (dictErase (supernetOfNet net) d) < f := by
            unfold mergeWeight at hf ⊢
            simp only [List.map_cons, List.sum_cons] at hf ⊢
            by_cases h1 : 1 ≤ net.plen
            · have := hsuppeq h1
              omega
            · have hz : net.plen = 0 := by omega
              have he1 : 1 ≤ existing.plen := by omega
              have : supernetOfNet net = net := supernetOfNet_zero net hz
              rw [this] at hwt ⊢
              omega
          have hsub := dictErase_sublist (supernetOfNet net) d
          have hinv2 : dictInv (dictErase (supernetOfNet net) d) := by
            constructor
            · intro e he
              exact hinv.1 e (hsub.subset he)
            · exact List.Pairwise.sublist (List.Sublist.map Prod.fst hsub) hinv.2
          have htm2 : ∀ n ∈ supernetOfNet net :: rest, wfNet n := by
            intro n hn
            rcases List.mem_cons.mp hn with h | h
            · rw [h]
              exact hwsup
            · exact htmr n h
          obtain ⟨ih1, ih2⟩ := ih (supernetOfNet net :: rest)
            (dictErase (supernetOfNet net) d) hfuel htm2 hinv2
          refine ⟨ih1, fun a => ?_⟩
          rw [ih2 a, memUnion_cons, memUnion_cons,
            dictErase_union (supernetOfNet net) existing d hinv.2 hpair a,
            hmerge a]
          tauto

theorem memNet_plen32 (a : Nat) (n : Net) (h : n.plen = 32) :
    memNet a n ↔ a = n.base := by
  unfold memNet broadcastOf blockSize
  rw [h, show (32 : Nat) - 32 = 0 from rfl, pow_zero]
  omega

theorem memUnion_filter_split (a : Nat) (l : List Net) (p : Net → Bool) :
    memUnion a l ↔ memUnion a (l.filter p) ∨ memUnion a (l.filter fun n => !(p n)) := by
  unfold memUnion
  constructor
  · rintro ⟨n, hn, hm⟩
    cases hp : p n with
    | true => exact Or.inl ⟨n, List.mem_filter.mpr ⟨hn, hp⟩, hm⟩
    | false =>
      refine Or.inr ⟨n, List.mem_filter.mpr ⟨hn, ?_⟩, hm⟩
      rw [hp]
      rfl
  · rintro (⟨n, hn, hm⟩ | ⟨n, hn, hm⟩)
    · exact ⟨n, (List.mem_filter.mp hn).1, hm⟩
    · exact ⟨n, (List.mem_filter.mp hn).1, hm⟩

theorem memUnion_reverse (a : Nat) (l : List Net) :
    memUnion a l.reverse ↔ memUnion a l := by
  unfold memUnion
  constructor <;> rintro ⟨n, hn, hm⟩
  · exact ⟨n, List.mem_reverse.mp hn, hm⟩
  · exact ⟨n, List.mem_reverse.mpr hn, hm⟩

theorem memUnion_perm (a : Nat) {l1 l2 : List Net} (h : l1.Perm l2) :
    memUnion a l1 ↔ memUnion a l2 := by
  unfold memUnion
  constructor <;> rintro ⟨n, hn, hm⟩
  · exact ⟨n, h.mem_iff.mp hn, hm⟩
  · exact ⟨n, h.mem_iff.mpr hn, hm⟩

/-- The subsumption pass on a sorted list yields a pairwise-disjoint
subsequence covering everything not already inside the last yielded
network. -/
theorem subsumeFilter_spec : ∀ (l : List Net) (cur : Option Net),
    List.Sorted netLe l → (∀ n ∈ l, wfNet n) →
    (∀ lst, cur = some lst → wfNet lst ∧ ∀ n ∈ l, netLe lst n) →
    (subsumeFilter l cur).Sublist l ∧
    (∀ a, memUnion a l → memUnion a (subsumeFilter l cur) ∨
      (∃ lst, cur = some lst ∧ memNet a lst)) ∧
    (subsumeFilter l cur).Pairwise disjNets ∧
    (∀ lst, cur = some lst → ∀ m ∈ subsumeFilter l cur,
      broadcastOf lst < broadcastOf m) := by
  intro l
  induction l with
  | nil =>
    intro cur _ _ _
    refine ⟨List.nil_sublist _, ?_, List.Pairwise.nil, ?_⟩
    · intro a ha
      exact absurd ha (memUnion_nil a)
    · intro lst _ m hm
      exact absurd hm (List.not_mem_nil m)
  | cons n rest ih =>
    intro cur hsort hwf hcur
    obtain ⟨hn1, hsort2⟩ := List.sorted_cons.mp hsort
    have hwn := hwf n (List.mem_cons_self _ _)
    have hwr : ∀ m ∈ rest, wfNet m := fun m hm => hwf m (List.mem_cons_of_mem _ hm)
    cases cur with
    | none =>
      rw [show subsumeFilter (n :: rest) none
          = n :: subsumeFilter rest (some n) from rfl]
      obtain ⟨ihsub, ihun, ihpw, ihbr⟩ := ih (some n) hsort2 hwr
        (fun lst hl => by
          injection hl with h2
          rw [← h2]
          exact ⟨hwn, hn1⟩)
      refine ⟨List.Sublist.cons₂ n ihsub, ?_, ?_, ?_⟩
      · intro a ha
        rcases (memUnion_cons a n rest).mp ha with h | h
        · exact Or.inl ((memUnion_cons _ _ _).mpr (Or.inl h))
        · rcases ihun a h with h2 | ⟨lst, hl, hm⟩
          · exact Or.inl ((memUnion_cons _ _ _).mpr (Or.inr h2))
          · injection hl with h3
            rw [← h3] at hm
            exact Or.inl ((memUnion_cons _ _ _).mpr (Or.inl hm))
      · refine List.pairwise_cons.mpr ⟨?_, ihpw⟩
        intro m hm
        have hmr : m ∈ rest := ihsub.subset hm
        exact disj_of_netLe n m hwn (hwr m hmr) (hn1 m hmr) (ihbr n rfl m hm)
      · intro lst hl
        exact Option.noConfusion hl
    | some lst0 =>
      obtain ⟨hwl, hle⟩ := hcur lst0 rfl
      rw [show subsumeFilter (n :: rest) (some lst0)
          = if broadcastOf n ≤ broadcastOf lst0 then subsumeFilter rest (some lst0)
            else n :: subsumeFilter rest (some n) from rfl]
      by_cases hbr : broadcastOf n ≤ broadcastOf lst0
      · rw [if_pos hbr]
        obtain ⟨ihsub, ihun, ihpw, ihbr⟩ := ih (some lst0) hsort2 hwr
          (fun lst hl => by
            injection hl with h2
            rw [← h2]
            exact ⟨hwl, fun m hm => hle m (List.mem_cons_of_mem _ hm)⟩)
        refine ⟨List.Sublist.cons n ihsub, ?_, ihpw, ?_⟩
        · intro a ha
          rcases (memUnion_cons a n rest).mp ha with h | h
          · right
            refine ⟨lst0, rfl, ?_⟩
            have hlen : lst0.base ≤ n.base := by
              rcases hle n (List.mem_cons_self _ _) with h2 | ⟨h2, _⟩
              · omega
              · omega
            exact memNet_mono hlen hbr a h
          · exact ihun a h
        · intro lst hl m hm
          exact ihbr lst hl m hm
      · rw [if_neg hbr]
        push_neg at hbr
        obtain ⟨ihsub, ihun, ihpw, ihbr⟩ := ih (some n) hsort2 hwr
          (fun lst hl => by
            injection hl with h2
            rw [← h2]
            exact ⟨hwn, hn1⟩)
        refine ⟨List.Sublist.cons₂ n ihsub, ?_, ?_, ?_⟩
        · intro a ha
          rcases (memUnion_cons a n rest).mp ha with h | h
          · exact Or.inl ((memUnion_cons _ _ _).mpr (Or.inl h))
          · rcases ihun a h with h2 | ⟨lst, hl, hm⟩
            · exact Or.inl ((memUnion_cons _ _ _).mpr (Or.inr h2))
            · injection hl with h3
              rw [← h3] at hm
              exact Or.inl ((memUnion_cons _ _ _).mpr (Or.inl hm))
        · refine List.pairwise_cons.mpr ⟨?_, ihpw⟩
          intro m hm
          have hmr : m ∈ rest := ihsub.subset hm
          exact disj_of_netLe n m hwn (hwr m hmr) (hn1 m hmr) (ihbr n rfl m hm)
        · intro lst hl m hm
          injection hl with h2
          rw [← h2]
          rcases List.mem_cons.mp hm with h | h
          · rw [h]
            exact hbr
          · exact lt_trans hbr (ihbr n rfl m h)

/-- Merge loop followed by sort and subsumption: the output is a
pairwise-disjoint, sibling-free family of well-formed blocks covering
exactly the union of the worklist. -/
theorem collapse_pipeline (initial : List Net) (hw0 : ∀ n ∈ initial, wfNet n) :
    (∀ n ∈ subsumeFilter (List.insertionSort netLe
        ((mergeLoopF (mergeWeight initial [] + 1) initial []).map fun e => e.2)) none,
      wfNet n) ∧
    (∀ a, memUnion a (subsumeFilter (List.insertionSort netLe
        ((mergeLoopF (mergeWeight initial [] + 1) initial []).map fun e => e.2)) none) ↔
      memUnion a initial) ∧
    (subsumeFilter (List.insertionSort netLe
        ((mergeLoopF (mergeWeight initial [] + 1) initial []).map fun e => e.2))
        none).Pairwise disjNets ∧
    (subsumeFilter (List.insertionSort netLe
        ((mergeLoopF (mergeWeight initial [] + 1) initial []).map fun e => e.2))
        none).Pairwise (fun x y => supernetOfNet x ≠ supernetOfNet y) := by
  have hinv0 : dictInv ([] : List (Net × Net)) := by
    constructor
    · intro e he
      exact absurd he (List.not_mem_nil e)
    · exact List.Pairwise.nil
  obtain ⟨hinv, hun⟩ := mergeLoopF_spec (mergeWeight initial [] + 1) initial []
    (by omega) hw0 hinv0
  have hvwf : ∀ n ∈ (mergeLoopF (mergeWeight initial [] + 1) initial []).map
      (fun e : Net × Net => e.2), wfNet n := by
    intro n hn
    obtain ⟨e, he, hee⟩ := List.mem_map.mp hn
    rw [← hee]
    exact (hinv.1 e he).2
  have hvun : ∀ a, memUnion a ((mergeLoopF (mergeWeight initial [] + 1) initial []).map
      (fun e : Net × Net => e.2)) ↔ memUnion a initial := by
    intro a
    have h := hun a
    constructor
    · intro hx
      rcases h.mp hx with h1 | h1
      · exact h1
      · exact absurd h1 (memUnion_nil a)
    · intro hx
      exact h.mpr (Or.inl hx)
  have hvsup : ((mergeLoopF (mergeWeight initial [] + 1) initial []).map
      (fun e : Net × Net => e.2)).Pairwise
        (fun x y => supernetOfNet x ≠ supernetOfNet y) := by
    refine List.pairwise_map.mpr ?_
    have h1 : (mergeLoopF (mergeWeight initial [] + 1) initial []).Pairwise
        (fun e f : Net × Net => e.1 ≠ f.1) := List.pairwise_map.mp hinv.2
    refine List.Pairwise.imp_of_mem ?_ h1
    intro e f he hf hne heq
    apply hne
    rw [← (hinv.1 e he).1, ← (hinv.1 f hf).1, heq]
  have hperm := List.perm_insertionSort netLe
    ((mergeLoopF (mergeWeight initial [] + 1) initial []).map (fun e : Net × Net => e.2))
  have hsorted : List.Sorted netLe (List.insertionSort netLe
      ((mergeLoopF (mergeWeight initial [] + 1) initial []).map
        (fun e : Net × Net => e.2))) :=
    List.sorted_insertionSort netLe _
  have hswf : ∀ n ∈ List.insertionSort netLe
      ((mergeLoopF (mergeWeight initial [] + 1) initial []).map
        (fun e : Net × Net => e.2)), wfNet n :=
    fun n hn => hvwf n (hperm.mem_iff.mp hn)
  have hsun : ∀ a, memUnion a (List.insertionSort netLe
      ((mergeLoopF (mergeWeight initial [] + 1) initial []).map
        (fun e : Net × Net => e.2))) ↔ memUnion a initial :=
    fun a => (memUnion_perm a hperm).trans (hvun a)
  have hssup := (List.Perm.pairwise_iff
    (fun {_ _} h he => h he.symm) hperm).mpr hvsup
  obtain ⟨hsub, hun2, hpw, _⟩ := subsumeFilter_spec
    (List.insertionSort netLe
      ((mergeLoopF (mergeWeight initial [] + 1) initial []).map
        (fun e : Net × Net => e.2))) none hsorted hswf
    (fun lst hl => Option.noConfusion hl)
  refine ⟨?_, ?_, hpw, ?_⟩
  · exact fun n hn => hswf n (hsub.subset hn)
  · intro a
    constructor
    · intro hx
      refine (hsun a).mp ?_
      obtain ⟨n, hn, hm⟩ := hx
      exact ⟨n, hsub.subset hn, hm⟩
    · intro hx
      rcases hun2 a ((hsun a).mpr hx) with h | ⟨lst, hl, _⟩
      · exact h
      · exact Option.noConfusion hl
  · exact List.Pairwise.sublist hsub hssup

/-- `collapse_addresses` on well-formed inputs: well-formed, pairwise
disjoint, sibling-free output blocks covering exactly the input union. -/
theorem collapseNets_spec (inputs : List Net) (hw : ∀ n ∈ inputs, wfNet n) :
    (∀ n ∈ collapseNets inputs, wfNet n) ∧
    (∀ a, memUnion a (collapseNets inputs) ↔ memUnion a inputs) ∧
    (collapseNets inputs).Pairwise disjNets ∧
    (collapseNets inputs).Pairwise (fun x y => supernetOfNet x ≠ supernetOfNet y) := by
  have hipsb : ∀ x ∈ (inputs.filter fun n => decide (n.plen = 32)).map
      (fun n => n.base), x < 4294967296 := by
    intro x hx
    obtain ⟨n, hn, hee⟩ := List.mem_map.mp hx
    rw [← hee]
    exact base_lt n (hw n (List.mem_filter.mp hn).1)
  have hsips : ∀ x ∈ sortedIps ((inputs.filter fun n => decide (n.plen = 32)).map
      (fun n => n.base)), x < 4294967296 :=
    fun x hx => hipsb x ((sortedIps_mem _ x).mp hx)
  have hcac := collectAddrs_spec
    (sortedIps ((inputs.filter fun n => decide (n.plen = 32)).map (fun n => n.base)))
    hsips (sortedIps_pairwise _)
  have hcw := hcac.1
  have hcu := hcac.2
  have hiw : ∀ n ∈ (collectAddrs (sortedIps
      ((inputs.filter fun n => decide (n.plen = 32)).map (fun n => n.base))) ++
      inputs.filter fun n => !(decide (n.plen = 32))).reverse, wfNet n := by
    intro n hn
    rw [List.mem_reverse] at hn
    rcases List.mem_append.mp hn with h | h
    · exact hcw n h
    · exact hw n (List.mem_filter.mp h).1
  have hiu : ∀ a, memUnion a ((collectAddrs (sortedIps
      ((inputs.filter fun n => decide (n.plen = 32)).map (fun n => n.base))) ++
      inputs.filter fun n => !(decide (n.plen = 32))).reverse) ↔
      memUnion a inputs := by
    intro a
    rw [memUnion_reverse, memUnion_append, hcu a, sortedIps_mem,
      memUnion_filter_split a inputs (fun n => decide (n.plen = 32))]
    have hips_iff : a ∈ (inputs.filter fun n => decide (n.plen = 32)).map
        (fun n => n.base) ↔
        memUnion a (inputs.filter fun n => decide (n.plen = 32)) := by
      constructor
      · intro h
        obtain ⟨n, hn, hee⟩ := List.mem_map.mp h
        refine ⟨n, hn, ?_⟩
        rw [memNet_plen32 a n (of_decide_eq_true (List.mem_filter.mp hn).2)]
        exact hee.symm
      · rintro ⟨n, hn, hm⟩
        rw [memNet_plen32 a n (of_decide_eq_true (List.mem_filter.mp hn).2)] at hm
        exact List.mem_map.mpr ⟨n, hn, hm.symm⟩
    rw [hips_iff]
  obtain ⟨h1, h2, h3, h4⟩ := collapse_pipeline
    ((collectAddrs (sortedIps
      ((inputs.filter fun n => decide (n.plen = 32)).map (fun n => n.base))) ++
      inputs.filter fun n => !(decide (n.plen = 32))).reverse) hiw
  refine ⟨h1, ?_, h3, h4⟩
  intro a
  exact (h2 a).trans (hiu a)

/-- C7: `supernet_networks` (aggregate) returns a single covering network
exactly when the union of the input networks is itself one CIDR block —
i.e. the minimal set of disjoint CIDR blocks covering the union has one
element — and that network covers exactly the union; otherwise it returns
the non-error result `None`. In particular the four /26 quarters of
192.168.1.0/24 aggregate to 192.168.1.0/24, while 192.168.1.0/26 and
192.168.3.0/26 yield `None`. -/
theorem c7_supernet_spec (nets : List Net) (hw : ∀ n ∈ nets, wfNet n) :
    ((∃ b, supernetNets nets = some b) ↔ coverOne nets) ∧
    (∀ b, supernetNets nets = some b →
      wfNet b ∧ ∀ a, memNet a b ↔ memUnion a nets) ∧
    supernet_networks ["192.168.1.0/26", "192.168.1.64/26",
      "192.168.1.128/26", "192.168.1.192/26"] = some "192.168.1.0/24" ∧
    supernet_networks ["192.168.1.0/26", "192.168.3.0/26"] = none := by
  obtain ⟨hwc, huc, hpwc, hsupc⟩ := collapseNets_spec nets hw
  have hmain : ((∃ b, supernetNets nets = some b) ↔ coverOne nets) ∧
      (∀ b, supernetNets nets = some b →
        wfNet b ∧ ∀ a, memNet a b ↔ memUnion a nets) := by
    cases hL : collapseNets nets with
    | nil =>
      have hnone : supernetNets nets = none := by
        unfold supernetNets
        rw [hL]
      constructor
      · constructor
        · rintro ⟨b, hb⟩
          rw [hnone] at hb
          exact Option.noConfusion hb
        · rintro ⟨b, hwb, hcov⟩
          exfalso
          have h2 := (hcov b.base).mp (memNet_base b)
          have h3 := (huc b.base).mpr h2
          rw [hL] at h3
          exact memUnion_nil b.base h3
      · intro b hb
        rw [hnone] at hb
        exact Option.noConfusion hb
    | cons b tail =>
      cases tail with
      | nil =>
        have hsome : supernetNets nets = some b := by
          unfold supernetNets
          rw [hL]
        have hbL : b ∈ collapseNets nets := by
          rw [hL]
          exact List.mem_cons_self _ _
        have hwb := hwc b hbL
        have hcov : ∀ a, memNet a b ↔ memUnion a nets := by
          intro a
          rw [← huc a, hL, memUnion_cons]
          constructor
          · exact Or.inl
          · rintro (h | h)
            · exact h
            · exact absurd h (memUnion_nil a)
        constructor
        · constructor
          · intro _
            exact ⟨b, hwb, hcov⟩
          · intro _
            exact ⟨b, hsome⟩
        · intro b2 hb2
          rw [hsome] at hb2
          have hbb : b = b2 := Option.some.inj hb2
          rw [← hbb]
          exact ⟨hwb, hcov⟩
      | cons c tail2 =>
        have hnone : supernetNets nets = none := by
          unfold supernetNets
          rw [hL]
        have hnc := no_single_cover (b :: c :: tail2)
          (by rw [← hL]; exact hwc) (by rw [← hL]; exact hpwc)
          (by rw [← hL]; exact hsupc)
          (by rw [List.length_cons, List.length_cons]; omega)
        constructor
        · constructor
          · rintro ⟨b2, hb2⟩
            rw [hnone] at hb2
            exact Option.noConfusion hb2
          · rintro ⟨b2, hwb2, hcov2⟩
            exfalso
            apply hnc
            refine ⟨b2, hwb2, fun a => ?_⟩
            rw [hcov2 a, ← huc a, hL]
        · intro b2 hb2
          rw [hnone] at hb2
          exact Option.noConfusion hb2
  exact ⟨hmain.1, hmain.2, by decide, by decide⟩

theorem c7_supernet_spec_witness :
    (∀ n ∈ [(⟨3232235776, 26⟩ : Net), ⟨3232235840, 26⟩,
        ⟨3232235904, 26⟩, ⟨3232235968, 26⟩], wfNet n) ∧
    (((∃ b, supernetNets [(⟨3232235776, 26⟩ : Net), ⟨3232235840, 26⟩,
          ⟨3232235904, 26⟩, ⟨3232235968, 26⟩] = some b) ↔
        coverOne [(⟨3232235776, 26⟩ : Net), ⟨3232235840, 26⟩,
          ⟨3232235904, 26⟩, ⟨3232235968, 26⟩]) ∧
      (∀ b, supernetNets [(⟨3232235776, 26⟩ : Net), ⟨3232235840, 26⟩,
          ⟨3232235904, 26⟩, ⟨3232235968, 26⟩] = some b →
        wfNet b ∧ ∀ a, memNet a b ↔ memUnion a
          [(⟨3232235776, 26⟩ : Net), ⟨3232235840, 26⟩,
            ⟨3232235904, 26⟩, ⟨3232235968, 26⟩]) ∧
      supernet_networks ["192.168.1.0/26", "192.168.1.64/26",
        "192.168.1.128/26", "192.168.1.192/26"] = some "192.168.1.0/24" ∧
      supernet_networks ["192.168.1.0/26", "192.168.3.0/26"] = none) :=
  ⟨by decide, c7_supernet_spec [⟨3232235776, 26⟩, ⟨3232235840, 26⟩,
    ⟨3232235904, 26⟩, ⟨3232235968, 26⟩] (by decide)⟩

end NetCalc
